import Mathlib

/-!
Shallow embedding of the bookclub_rummy hand-evaluation engine
(src/card.rs, src/scoring.rs, src/game.rs, src/analysis.rs) and proofs
about it.

Modelling conventions, used consistently below:
* Rust u64 scores are modelled as Nat (all scores are small constants, no
  overflow is reachable), i64 improvements as Int, f64 probabilities and
  expected values as Rat with decimal literals mapped to exact rationals.
* Rust Result is modelled as Except String; every meld scoring function in
  the source returns Ok on every path, and the embedding mirrors that by
  wrapping a pure value in Except.ok.
* Rust HashMap is modelled as an association list in first-insertion order.
  The source only ever iterates a map to take a maximum over distinct keys,
  to sum over entries, or (in the scoring engine, under the 5-card
  assumption) in a way whose result is insertion-order independent, so the
  choice of a deterministic order is faithful.
* Vec.sort, Vec.sort_unstable and sort_by are modelled with a stable
  insertion sort agreeing with the comparator; ties between cards of equal
  rank are resolved deterministically, one of the behaviours sort_unstable
  allows.
* The thread-rng partial_shuffle sampling in the tree builder is modelled
  by an abstract sampler function; theorems quantify over all samplers.
* The mutually recursive tree builder is embedded with an explicit fuel
  argument; the recursion in the source is bounded by the depth < 3 gate,
  so for fuel at least 7 the fuel-exhaustion branch is unreachable and the
  embedding computes the same tree shape as the source.
-/

namespace Rummy

/-! ## Card model (src/card.rs) -/

/-- Rank enum from card.rs: Two ... Fourteen. -/
inductive Rank where
  | two | three | four | five | six | seven | eight | nine | ten
  | eleven | twelve | thirteen | fourteen
deriving DecidableEq, Repr, Fintype

/-- Name enum from card.rs: Two ... Ace. -/
inductive CardName where
  | two | three | four | five | six | seven | eight | nine | ten
  | jack | queen | king | ace
deriving DecidableEq, Repr

/-- Suite enum from card.rs. -/
inductive Suite where
  | spades | hearts | clubs | diamonds
deriving DecidableEq, Repr

/-- Card struct from card.rs. Derived PartialEq in Rust compares all three
fields, which is exactly structural equality of this Lean structure. -/
structure Card where
  rank : Rank
  suite : Suite
  name : CardName
deriving DecidableEq, Repr

/-- Rank.to_u64 from card.rs. The Rust version returns Result but its map
covers every constructor, so it is total; embedded as a pure function. -/
def rankToU64 : Rank → Nat
  | .two => 2 | .three => 3 | .four => 4 | .five => 5 | .six => 6
  | .seven => 7 | .eight => 8 | .nine => 9 | .ten => 10
  | .eleven => 11 | .twelve => 12 | .thirteen => 13 | .fourteen => 14

/-- Numeric rank value of a card (card.rank.to_u64().unwrap() in the source). -/
def rankVal (c : Card) : Nat := rankToU64 c.rank

/-- The Ord impl for Card in card.rs: compare by rank value only. -/
def Card.cmp (a b : Card) : Ordering := compare (rankToU64 a.rank) (rankToU64 b.rank)

/-! ## Meld scoring engine (src/scoring.rs)

Each scoring function in the source has type fn(CardVec) -> Result<u64, String>
and returns Ok on every code path.  Each is embedded as a pure value function
(the xVal definitions, carrying the full control flow of the source) wrapped
into Except.ok by the corresponding x_score definition whose name matches the
source. -/

/-- The nested loop of pair_score: some earlier card shares a rank with some
later card. -/
def hasPairRank : List Card → Bool
  | [] => false
  | c :: rest => rest.any (fun d => c.rank == d.rank) || hasPairRank rest

def pairVal (hand : List Card) : Nat := if hasPairRank hand then 2 else 0

/-- pair_score from scoring.rs. -/
def pair_score (hand : List Card) : Except String Nat := .ok (pairVal hand)

/-- Association-list counter used to model HashMap count maps
(entry(k).or_insert(0) += 1), in first-occurrence order. -/
def bumpCount {α : Type} [DecidableEq α] : List (α × Nat) → α → List (α × Nat)
  | [], k => [(k, 1)]
  | (k0, v) :: rest, k =>
      if k0 = k then (k0, v + 1) :: rest else (k0, v) :: bumpCount rest k

/-- Rank multiplicity map of a hand (the HashMap of two_pair_score,
three_of_a_kind_score and four_of_a_kind_score). -/
def rankCounts (hand : List Card) : List (Rank × Nat) :=
  hand.foldl (fun m c => bumpCount m c.rank) []

def twoPairVal (hand : List Card) : Nat :=
  let pairs := ((rankCounts hand).map (fun e => e.2)).filter (fun n => 2 ≤ n)
  if pairs.length = 2 then 5 else 0

/-- two_pair_score from scoring.rs. -/
def two_pair_score (hand : List Card) : Except String Nat := .ok (twoPairVal hand)

def threeOfAKindVal (hand : List Card) : Nat :=
  let triples := ((rankCounts hand).map (fun e => e.2)).filter (fun n => n = 3)
  if triples ≠ [] then 15 else 0

/-- three_of_a_kind_score from scoring.rs. -/
def three_of_a_kind_score (hand : List Card) : Except String Nat :=
  .ok (threeOfAKindVal hand)

def fourOfAKindVal (hand : List Card) : Nat :=
  let quads := ((rankCounts hand).map (fun e => e.2)).filter (fun n => n = 4)
  if quads ≠ [] then 50 else 0

/-- four_of_a_kind_score from scoring.rs. -/
def four_of_a_kind_score (hand : List Card) : Except String Nat :=
  .ok (fourOfAKindVal hand)

/-- Association-list grouping used to model the HashMap<Suite, Vec<u64>> of
sequence_of_three_score and sequence_of_four_score, in first-occurrence
order; values are appended in hand order as in the source. -/
def bumpGroup : List (Suite × List Nat) → Suite → Nat → List (Suite × List Nat)
  | [], s, v => [(s, [v])]
  | (s0, vs) :: rest, s, v =>
      if s0 = s then (s0, vs ++ [v]) :: rest else (s0, vs) :: bumpGroup rest s v

def suiteGroups (hand : List Card) : List (Suite × List Nat) :=
  hand.foldl (fun m c => bumpGroup m c.suite (rankVal c)) []

/-- Rank values collected from suite groups holding at least three cards
(the values vector of sequence_of_three_score / sequence_of_four_score). -/
def bigSuiteValues (hand : List Card) : List Nat :=
  (suiteGroups hand).foldl (fun acc g => if 3 ≤ g.2.length then acc ++ g.2 else acc) []

/-- Vec::dedup: remove consecutive duplicate elements. -/
def dedupAdj {α : Type} [DecidableEq α] : List α → List α
  | [] => []
  | [a] => [a]
  | a :: b :: rest =>
      if a = b then dedupAdj (b :: rest) else a :: dedupAdj (b :: rest)

/-- Insertion of one element into a sorted list, the auxiliary step of the
stable insertion sort used to model the Vec sorts of the source. -/
def insSorted {α : Type} (le : α → α → Bool) (a : α) : List α → List α
  | [] => [a]
  | b :: rest => if le a b then a :: b :: rest else b :: insSorted le a rest

/-- Stable insertion sort; a comparator-correct sort, as Vec::sort and
Vec::sort_unstable both guarantee (they differ only in tie order, which is
unspecified for sort_unstable, so this deterministic choice is one of its
allowed behaviours). -/
def insSort {α : Type} (le : α → α → Bool) : List α → List α
  | [] => []
  | a :: rest => insSorted le a (insSort le rest)

/-- Vec::sort on u64 values. -/
def sortNat (l : List Nat) : List Nat := insSort (fun a b => a ≤ b) l

/-- The windows(3) scan of sequence_of_three_score: some window of three
successive positions carries three consecutive values. -/
def hasRun3 : List Nat → Bool
  | a :: b :: c :: rest => (b = a + 1 && c = b + 1) || hasRun3 (b :: c :: rest)
  | _ => false

def sequenceOfThreeVal (hand : List Card) : Nat :=
  if hasRun3 (sortNat (dedupAdj (bigSuiteValues hand))) then 10 else 0

/-- sequence_of_three_score from scoring.rs (dedup is applied before sort,
exactly as in the source). -/
def sequence_of_three_score (hand : List Card) : Except String Nat :=
  .ok (sequenceOfThreeVal hand)

/-- The indexed loop of sequence_of_four_score, carried over adjacent pairs:
state is the loop index i and the running sequence_len. -/
def seq4Loop : List Nat → Nat → Nat → Nat
  | a :: b :: rest, i, slen =>
      let slen2 := if a + 1 = b then slen + 1 else 1
      if slen2 = 4 then 30
      else if slen2 < 2 ∧ 2 ≤ i then 0
      else seq4Loop (b :: rest) (i + 1) slen2
  | _, _, _ => 0

def sequenceOfFourVal (hand : List Card) : Nat :=
  let values := sortNat (dedupAdj (bigSuiteValues hand))
  if 4 ≤ values.length then seq4Loop values 0 1 else 0

/-- sequence_of_four_score from scoring.rs. -/
def sequence_of_four_score (hand : List Card) : Except String Nat :=
  .ok (sequenceOfFourVal hand)

/-- Straightness check of straight_score: every windows(2) pair of the sorted
values is consecutive (vacuously true for lists shorter than 2, as in the
source). -/
def isChain : List Nat → Bool
  | a :: b :: rest => (a + 1 = b) && isChain (b :: rest)
  | _ => true

def straightVal (hand : List Card) : Nat :=
  if isChain (sortNat (hand.map rankVal)) then 20 else 0

/-- straight_score from scoring.rs. -/
def straight_score (hand : List Card) : Except String Nat := .ok (straightVal hand)

def flushVal (hand : List Card) : Nat :=
  if (dedupAdj (hand.map (fun c => c.suite))).length = 1 then 25 else 0

/-- flush_score from scoring.rs: dedup of the unsorted suite vector has
length 1 exactly when all suites are equal. -/
def flush_score (hand : List Card) : Except String Nat := .ok (flushVal hand)

/-- The windows(2) filter of full_set_score: values of adjacent equal pairs
in the sorted rank list.  The source keeps the two-element slices; since both
components are equal, keeping the shared value is an equivalent rendering,
and sorting those slices lexicographically is sorting these values. -/
def adjEqPairs : List Nat → List Nat
  | a :: b :: rest => if a = b then a :: adjEqPairs (b :: rest) else adjEqPairs (b :: rest)
  | _ => []

/-- The indexed loop of full_set_score over the ranks left after removing the
highest pair: same shape as seq4Loop with target length 3 and early exit
from index 1. -/
def seq3Loop : List Nat → Nat → Nat → Nat
  | a :: b :: rest, i, slen =>
      let slen2 := if a + 1 = b then slen + 1 else 1
      if slen2 = 3 then 35
      else if slen2 < 2 ∧ 1 ≤ i then 0
      else seq3Loop (b :: rest) (i + 1) slen2
  | _, _, _ => 0

def fullSetVal (hand : List Card) : Nat :=
  let values := sortNat (hand.map rankVal)
  let pairs := sortNat (adjEqPairs values)
  match pairs.getLast? with
  | none => 0
  | some hp =>
      let kept := hand.filter (fun c => rankVal c ≠ hp)
      let vals2 := sortNat (kept.map rankVal)
      seq3Loop vals2 0 1

/-- full_set_score from scoring.rs: drop every card sharing the rank of the
highest adjacent pair, then look for a run of three among the remaining
ranks. -/
def full_set_score (hand : List Card) : Except String Nat := .ok (fullSetVal hand)

/-- Nat multiplicity map keyed by rank value (the count HashMap of
full_house_score, which is keyed by u64 rank values in the source). -/
def natCounts (l : List Nat) : List (Nat × Nat) :=
  l.foldl (fun m v => bumpCount m v) []

def fullHouseVal (hand : List Card) : Nat :=
  let values := sortNat (hand.map rankVal)
  let freqs := sortNat ((natCounts values).map (fun e => e.2))
  if freqs = [2, 3] then 40 else 0

/-- full_house_score from scoring.rs. -/
def full_house_score (hand : List Card) : Except String Nat := .ok (fullHouseVal hand)

def straightFlushVal (hand : List Card) : Nat :=
  if 0 < straightVal hand ∧ 0 < flushVal hand then 80 else 0

/-- straight_flush_score from scoring.rs; the unwrap calls on straight_score
and flush_score read the Ok payloads, which are straightVal and flushVal. -/
def straight_flush_score (hand : List Card) : Except String Nat :=
  .ok (straightFlushVal hand)

def rankSum (hand : List Card) : Nat :=
  hand.foldl (fun acc c => acc + rankVal c) 0

def royalFlushVal (hand : List Card) : Nat :=
  if 0 < straightVal hand ∧ 0 < flushVal hand then
    if rankSum hand = 60 then 100 else 0
  else 0

/-- royal_flush_score from scoring.rs. -/
def royal_flush_score (hand : List Card) : Except String Nat :=
  .ok (royalFlushVal hand)

/-- MELD_FUNCTIONS from scoring.rs, in source order. -/
def MELD_FUNCTIONS : List (List Card → Except String Nat) :=
  [pair_score, two_pair_score, sequence_of_three_score, three_of_a_kind_score,
   straight_score, flush_score, sequence_of_four_score, full_set_score,
   full_house_score, four_of_a_kind_score, straight_flush_score, royal_flush_score]

/-- The twelve individual meld values of a hand, in MELD_FUNCTIONS order. -/
def meldVals (hand : List Card) : List Nat :=
  [pairVal hand, twoPairVal hand, sequenceOfThreeVal hand, threeOfAKindVal hand,
   straightVal hand, flushVal hand, sequenceOfFourVal hand, fullSetVal hand,
   fullHouseVal hand, fourOfAKindVal hand, straightFlushVal hand, royalFlushVal hand]

/-- Best 5-card meld value: maximum of the twelve meld values (with the
source accumulator seeded at 0). -/
def bestFive (hand : List Card) : Nat := (meldVals hand).foldl Nat.max 0

/-! ## Best-meld resolver (src/game.rs) -/

/-- calculate_best_meld_from_5_card_hand from game.rs: fold over
MELD_FUNCTIONS keeping the largest score.  The source unwraps each Result;
an Err payload would panic, which the embedding renders as none (no meld
function ever returns Err, so the none branch is unreachable). -/
def calculate_best_meld_from_5_card_hand (hand : List Card) : Option (Nat × List Card) :=
  (MELD_FUNCTIONS.foldl
    (fun acc f =>
      acc.bind fun best =>
        match f hand with
        | .ok score => some (if best < score then score else best)
        | .error _ => none)
    (some 0)).map (fun best => (best, hand))

/-- The derived Ord of Rust Result<u64, String>: Ok sorts before Err, Ok
payloads compare numerically, Err payloads compare as strings. -/
def exceptCmp : Except String Nat → Except String Nat → Ordering
  | .ok a, .ok b => compare a b
  | .ok _, .error _ => .lt
  | .error _, .ok _ => .gt
  | .error a, .error b => compare a b

instance : DecidableEq (Except String Nat) := fun a b =>
  match a, b with
  | .ok x, .ok y =>
      if h : x = y then isTrue (by rw [h]) else isFalse (by intro hc; cases hc; exact h rfl)
  | .ok _, .error _ => isFalse (by intro hc; cases hc)
  | .error _, .ok _ => isFalse (by intro hc; cases hc)
  | .error x, .error y =>
      if h : x = y then isTrue (by rw [h]) else isFalse (by intro hc; cases hc; exact h rfl)

/-- HashMap entry(score).or_insert_with(hand) of calculate_best_meld_from_hand:
keep the stored hand if the key is present, otherwise append the new entry. -/
def insertIfAbsent (m : List (Except String Nat × List Card))
    (k : Except String Nat) (v : List Card) : List (Except String Nat × List Card) :=
  if m.any (fun e => e.1 = k) then m else m ++ [(k, v)]

/-- One comparison step of iter().max_by_key: keep the entry with the larger
key, replacing on ties (as max_by_key keeps the last maximal element). -/
def maxStep (best : Option (Except String Nat × List Card))
    (x : Except String Nat × List Card) : Option (Except String Nat × List Card) :=
  match best with
  | none => some x
  | some b => if exceptCmp x.1 b.1 = .lt then some b else some x

/-- iter().max_by_key over the score map (keys of the map are distinct, so
tie handling is immaterial). -/
def maxByKey (l : List (Except String Nat × List Card)) :
    Option (Except String Nat × List Card) :=
  l.foldl maxStep none

/-- One skip-index step of the score_to_hand construction: when the residual
hand has exactly 5 cards, insert one entry per meld function. -/
def entryStep (hand : List Card) (m : List (Except String Nat × List Card))
    (i : Nat) : List (Except String Nat × List Card) :=
  if (hand.eraseIdx i).length = 5 then
    MELD_FUNCTIONS.foldl
      (fun m2 f => insertIfAbsent m2 (f (hand.eraseIdx i)) (hand.eraseIdx i)) m
  else m

/-- The score_to_hand map of calculate_best_meld_from_hand: for every skip
index whose residual hand has exactly 5 cards, insert one entry per meld
function, first insertion per score key winning. -/
def scoreEntries (hand : List Card) : List (Except String Nat × List Card) :=
  (List.range hand.length).foldl (entryStep hand) []

/-- calculate_best_meld_from_hand from game.rs: best score over all skip-one
5-card subhands together with the first subhand that achieved it; falls back
to (0, hand) when the map is empty or the best key is an Err. -/
def calculate_best_meld_from_hand (hand : List Card) : Nat × List Card :=
  match maxByKey (scoreEntries hand) with
  | some (.ok s, h) => (s, h)
  | some (.error _, _) => (0, hand)
  | none => (0, hand)

/-! ## Decision tree data model (src/analysis.rs) -/

structure PossibleHand where
  hand : List Card
  discard : Card
  meld_score : Nat
deriving DecidableEq, Repr

/-- Node from analysis.rs.  Declared as an inductive because branches nests
the type inside List. -/
inductive Node where
  | mk (full_hand : List Card) (possible_hands : List PossibleHand)
       (possible_cards : List Card) (discard_pile : List Card)
       (meld_score : Option Nat) (baseline_score : Nat)
       (branches : List Node) (depth : Nat)

def Node.full_hand : Node → List Card
  | .mk fh _ _ _ _ _ _ _ => fh

def Node.possible_hands : Node → List PossibleHand
  | .mk _ phs _ _ _ _ _ _ => phs

def Node.possible_cards : Node → List Card
  | .mk _ _ pcs _ _ _ _ _ => pcs

def Node.discard_pile : Node → List Card
  | .mk _ _ _ dp _ _ _ _ => dp

def Node.meld_score : Node → Option Nat
  | .mk _ _ _ _ ms _ _ _ => ms

def Node.baseline_score : Node → Nat
  | .mk _ _ _ _ _ bs _ _ => bs

def Node.branches : Node → List Node
  | .mk _ _ _ _ _ _ brs _ => brs

def Node.depth : Node → Nat
  | .mk _ _ _ _ _ _ _ d => d

def Node.withFullHand : Node → List Card → Node
  | .mk _ phs pcs dp ms bs brs d, fh => .mk fh phs pcs dp ms bs brs d

def Node.pushPH : Node → PossibleHand → Node
  | .mk fh phs pcs dp ms bs brs d, ph => .mk fh (phs ++ [ph]) pcs dp ms bs brs d

def Node.pushDiscard : Node → Card → Node
  | .mk fh phs pcs dp ms bs brs d, c => .mk fh phs pcs (dp ++ [c]) ms bs brs d

def Node.pushBranch : Node → Node → Node
  | .mk fh phs pcs dp ms bs brs d, b => .mk fh phs pcs dp ms bs (brs ++ [b]) d

def Node.extendBranches : Node → List Node → Node
  | .mk fh phs pcs dp ms bs brs d, bs2 => .mk fh phs pcs dp ms bs (brs ++ bs2) d

/-! ## Probability aggregator (src/analysis.rs) -/

structure ImprovementOutcome where
  final_score : Nat
  improvement : Int
  probability : ℚ
  path_count : Nat
deriving DecidableEq, Repr

structure RoundProbabilities where
  round : Nat
  total_simulations : Nat
  baseline_score : Nat
  improvements : List ImprovementOutcome
  probability_of_improvement : ℚ
  expected_improvement : ℚ
  risk_of_degradation : ℚ
deriving DecidableEq, Repr

/-- State threaded through collect_weighted_paths: the outcomes HashMap as an
association list, plus the total_prob and total_paths accumulators. -/
structure CState where
  outcomes : List (Nat × ℚ)
  total_prob : ℚ
  total_paths : Nat
deriving DecidableEq, Repr

/-- outcomes.entry(k).or_insert(0.0) += v on the association list. -/
def bumpQ : List (Nat × ℚ) → Nat → ℚ → List (Nat × ℚ)
  | [], k, v => [(k, v)]
  | (k0, v0) :: rest, k, v =>
      if k0 = k then (k0, v0 + v) :: rest else (k0, v0) :: bumpQ rest k v

/-- The possible-hands loop of collect_weighted_paths: one bump of weight bp
per possible hand (the local score_distribution map of the source is dead
code and is omitted). -/
def addPHW (bp : ℚ) (st : CState) (phs : List PossibleHand) : CState :=
  phs.foldl
    (fun s ph => ⟨bumpQ s.outcomes ph.meld_score bp, s.total_prob + bp, s.total_paths + 1⟩)
    st

mutual

/-- collect_weighted_paths from analysis.rs (collectWList is the for-loop
over branches). -/
def collectW : Node → Nat → Nat → ℚ → CState → CState
  | .mk _ phs _ _ _ bs brs _, cd, td, p, st =>
    if cd = td then
      if phs.isEmpty then ⟨bumpQ st.outcomes bs p, st.total_prob + p, st.total_paths + 1⟩
      else addPHW (p / (phs.length : ℚ)) st phs
    else if cd < td then
      if brs.isEmpty then
        if phs.isEmpty then ⟨bumpQ st.outcomes bs p, st.total_prob + p, st.total_paths + 1⟩
        else addPHW (p / (phs.length : ℚ)) st phs
      else collectWList brs (cd + 1) td (p / (brs.length : ℚ)) st
    else st

def collectWList : List Node → Nat → Nat → ℚ → CState → CState
  | [], _, _, _, st => st
  | n :: rest, cd, td, p, st => collectWList rest cd td p (collectW n cd td p st)

end

/-- Sort by descending final score (sort_by with the reversed comparator in
the source). -/
def sortOutcomesDesc (l : List ImprovementOutcome) : List ImprovementOutcome :=
  insSort (fun a b => b.final_score ≤ a.final_score) l

/-- analyze_round_with_paths from analysis.rs.  The f64 cast-to-usize of
path counts is modelled with the rational floor (the masses involved are
non-negative). -/
def analyze_round_with_paths (n : Node) (target_depth baseline : Nat) : RoundProbabilities :=
  let st := collectW n 0 target_depth 1 ⟨[], 0, 0⟩
  if st.outcomes.isEmpty ∨ st.total_prob = 0 then
    ⟨target_depth, 0, baseline, [], 0, 0, 0⟩
  else
    let improvements := sortOutcomesDesc (st.outcomes.map (fun kv =>
      ⟨kv.1, (kv.1 : Int) - (baseline : Int), kv.2 / st.total_prob,
       ((kv.2 * (st.total_paths : ℚ)).floor).toNat⟩))
    ⟨target_depth, ((st.total_prob * (st.total_paths : ℚ)).floor).toNat, baseline,
     improvements,
     ((improvements.filter (fun o => 0 < o.improvement)).map
       (fun o => o.probability)).sum,
     (improvements.map (fun o => (o.improvement : ℚ) * o.probability)).sum,
     ((improvements.filter (fun o => o.improvement < 0)).map
       (fun o => o.probability)).sum⟩

/-- State threaded through collect_direct_outcomes_at_depth: score counts
plus the total path counter. -/
structure DState where
  outcomes : List (Nat × Nat)
  total_count : Nat
deriving DecidableEq, Repr

/-- The possible-hands loop of collect_direct_outcomes_at_depth. -/
def addPHD (st : DState) (phs : List PossibleHand) : DState :=
  phs.foldl (fun s ph => ⟨bumpCount s.outcomes ph.meld_score, s.total_count + 1⟩) st

mutual

/-- collect_direct_outcomes_at_depth from analysis.rs.  Note the source has
no else branch for a node strictly before the target depth with no branches
and no possible hands: such a node contributes nothing. -/
def collectD : Node → Nat → Nat → DState → DState
  | .mk _ phs _ _ _ bs brs _, cd, td, st =>
    if cd = td then
      if phs.isEmpty then ⟨bumpCount st.outcomes bs, st.total_count + 1⟩
      else addPHD st phs
    else if cd < td ∧ ¬brs.isEmpty then collectDList brs (cd + 1) td st
    else if cd < td ∧ brs.isEmpty then
      if phs.isEmpty then st else addPHD st phs
    else st

def collectDList : List Node → Nat → Nat → DState → DState
  | [], _, _, st => st
  | n :: rest, cd, td, st => collectDList rest cd td (collectD n cd td st)

end

/-- analyze_realistic_round from analysis.rs. -/
def analyze_realistic_round (n : Node) (target_depth baseline : Nat) :
    Option RoundProbabilities :=
  let st := collectD n 0 target_depth ⟨[], 0⟩
  if st.total_count = 0 then none
  else
    let improvements := sortOutcomesDesc (st.outcomes.map (fun kv =>
      ⟨kv.1, (kv.1 : Int) - (baseline : Int), (kv.2 : ℚ) / (st.total_count : ℚ), kv.2⟩))
    some ⟨target_depth, st.total_count, baseline, improvements,
      ((improvements.filter (fun o => 0 < o.improvement)).map
        (fun o => o.probability)).sum,
      (improvements.map (fun o => (o.improvement : ℚ) * o.probability)).sum,
      ((improvements.filter (fun o => o.improvement < 0)).map
        (fun o => o.probability)).sum⟩

/-! ## Tree builder (src/analysis.rs)

The partial_shuffle random selection is abstracted as a Sampler: given the
available cards and the sample count, it yields the selected cards.  All
theorems below hold for every sampler.  The mutual recursion of the source
is bounded by the depth < 3 expansion gate; the embedding carries a fuel
argument consumed once per call layer, so any fuel of at least 7 makes the
fuel-0 branches unreachable from a root node. -/

def Sampler : Type := List Card → Nat → List Card

/-- full_hand.cards.sort_unstable(), which orders by the Card Ord instance
(rank value only); ties between equal-rank cards are kept in hand order. -/
def sortCards (l : List Card) : List Card :=
  insSort (fun a b => rankToU64 a.rank ≤ rankToU64 b.rank) l

/-- meld_scores.iter().max().unwrap_or(0) over the Ok results of all twelve
meld functions on a candidate discard hand. -/
def discardMax (hand : List Card) : Nat :=
  (MELD_FUNCTIONS.filterMap (fun f => (f hand).toOption)).foldl Nat.max 0

/-- The branch node built for one sampled draw card in evaluate_branches and
evaluate_branches_parallel. -/
def mkBranch (node : Node) (base_hand : List Card) (discard : Card)
    (mms : Option Nat) (drawn : Card) : Node :=
  .mk (base_hand ++ [drawn]) []
    (node.possible_cards.filter (fun c => c ≠ drawn))
    (node.discard_pile ++ [discard]) mms
    (calculate_best_meld_from_hand (base_hand ++ [drawn])).1 [] (node.depth + 1)

/-- One iteration of the sampled-draw loop of evaluate_branches: prune when
the node depth exceeds 1 and the branch baseline does not strictly exceed
the parent baseline, otherwise evaluate the branch (through the supplied
child evaluator) and push it. -/
def ebStep (evalH : Node → Node) (base_hand : List Card) (discard : Card)
    (mms : Option Nat) (node : Node) (drawn : Card) : Node :=
  let branch_baseline := (calculate_best_meld_from_hand (base_hand ++ [drawn])).1
  if 1 < node.depth ∧ branch_baseline ≤ node.baseline_score then node
  else node.pushBranch (evalH (mkBranch node base_hand discard mms drawn))

/-- One candidate of the filter_map in evaluate_branches_parallel: none when
pruned, otherwise the evaluated branch (evaluate_hand never fails, so the
Err-to-None arm of the source is unreachable). -/
def pbCandidate (evalH : Node → Node) (node : Node) (base_hand : List Card)
    (discard : Card) (mms : Option Nat) (drawn : Card) : Option Node :=
  let branch_baseline := (calculate_best_meld_from_hand (base_hand ++ [drawn])).1
  if 1 < node.depth ∧ branch_baseline ≤ node.baseline_score then none
  else some (evalH (mkBranch node base_hand discard mms drawn))

/-- One iteration of the discard loop of evaluate_hand (serial): record the
possible hand and expand branches only when the best discard score is
positive. -/
def ehStepSerial (eb : Node → List Card → List Card → Card → Option Nat → Node)
    (base_samples sorted : List Card) (node : Node) (ic : Nat × Card) : Node :=
  let new_hand := sorted.eraseIdx ic.1
  let mx := discardMax new_hand
  if 0 < mx then
    let node1 := (node.pushPH ⟨new_hand, ic.2, mx⟩).pushDiscard ic.2
    if node.depth < 3 ∧ ¬base_samples.isEmpty then eb node1 new_hand base_samples ic.2 (some mx)
    else node1
  else node

/-- One iteration of the discard loop of evaluate_hand_parallel: always
record the possible hand, expand regardless of score, dispatching to the
parallel branch routine at depth at most 1 and the serial one deeper. -/
def ehStepParallel (ebp eb : Node → List Card → List Card → Card → Option Nat → Node)
    (base_samples sorted : List Card) (node : Node) (ic : Nat × Card) : Node :=
  let new_hand := sorted.eraseIdx ic.1
  let mx := discardMax new_hand
  let node1 := (node.pushPH ⟨new_hand, ic.2, mx⟩).pushDiscard ic.2
  if node.depth < 3 ∧ ¬base_samples.isEmpty then
    if node.depth ≤ 1 then ebp node1 new_hand base_samples ic.2 (some mx)
    else eb node1 new_hand base_samples ic.2 (some mx)
  else node1

mutual

/-- evaluate_hand from analysis.rs: sort the hand, then run the discard loop
over the enumerated sorted cards; expansion goes through
evaluate_branches_parallel as in the source. -/
def evaluate_hand : Nat → Sampler → Node → Node
  | 0, _, node => node
  | fuel + 1, sampler, node =>
    let sorted := sortCards node.full_hand
    let base_samples := if node.depth < 3 then node.possible_cards else []
    sorted.enum.foldl
      (ehStepSerial
        (fun nd bh av dc ms => evaluate_branches_parallel fuel sampler nd bh av dc ms)
        base_samples sorted)
      (node.withFullHand sorted)

/-- evaluate_hand_parallel from analysis.rs. -/
def evaluate_hand_parallel : Nat → Sampler → Node → Node
  | 0, _, node => node
  | fuel + 1, sampler, node =>
    let sorted := sortCards node.full_hand
    let base_samples := if node.depth < 3 then node.possible_cards else []
    sorted.enum.foldl
      (ehStepParallel
        (fun nd bh av dc ms => evaluate_branches_parallel fuel sampler nd bh av dc ms)
        (fun nd bh av dc ms => evaluate_branches fuel sampler nd bh av dc ms)
        base_samples sorted)
      (node.withFullHand sorted)

/-- evaluate_branches from analysis.rs: early exit on an empty
possible_cards pool, then the in-place loop over the sampled draws. -/
def evaluate_branches : Nat → Sampler → Node → List Card → List Card → Card → Option Nat → Node
  | 0, _, node, _, _, _, _ => node
  | fuel + 1, sampler, node, base_hand, available_samples, discard, mms =>
    let sample_count := Nat.min 10 available_samples.length
    if node.possible_cards.isEmpty then node
    else
      (sampler available_samples sample_count).foldl
        (ebStep (fun b => evaluate_hand fuel sampler b) base_hand discard mms) node

/-- evaluate_branches_parallel from analysis.rs: the same selection and
pruning, with the surviving branches collected by filter_map and appended at
once (par_iter preserves order under collect). -/
def evaluate_branches_parallel : Nat → Sampler → Node → List Card → List Card → Card → Option Nat → Node
  | 0, _, node, _, _, _, _ => node
  | fuel + 1, sampler, node, base_hand, available_samples, discard, mms =>
    let sample_count := Nat.min 10 available_samples.length
    if node.possible_cards.isEmpty then node
    else
      node.extendBranches
        ((sampler available_samples sample_count).filterMap
          (pbCandidate (fun b => evaluate_hand fuel sampler b) node base_hand discard mms))

end

/-! ## Strategic card valuation (src/analysis.rs) -/

/-- calculate_score_without_card from analysis.rs: drop every card equal to
the target, then score through calculate_best_meld_from_hand when exactly 5
cards remain, else 0. -/
def Node.calculate_score_without_card (n : Node) (target : Card) : Nat :=
  let remaining := n.full_hand.filter (fun c => c ≠ target)
  if remaining.length = 5 then (calculate_best_meld_from_hand remaining).1 else 0

/-- calculate_immediate_contribution from analysis.rs (an f64 in the source,
modelled as an exact rational difference of the two integer scores). -/
def Node.calculate_immediate_contribution (n : Node) (target : Card) : ℚ :=
  (n.baseline_score : ℚ) - (n.calculate_score_without_card target : ℚ)

/-! ## Decision policy (src/analysis.rs) -/

inductive PlayAction where
  | Draw | Play | Retrieve
deriving DecidableEq, Repr

structure AutoPlayDecision where
  action : PlayAction
  confidence : ℚ
  expected_score : ℚ
  card_to_discard : Option Card
deriving DecidableEq, Repr

structure DecisionAnalysis where
  conservative_choice : Nat
  aggressive_choice : Nat
  balanced_choice : Nat
deriving DecidableEq, Repr

structure HandProbabilityAnalysis where
  current_baseline : Nat
  round_probabilities : List RoundProbabilities
  optimal_stop_round : Option Nat
  confidence_level : ℚ
  analysis_details : Option DecisionAnalysis
deriving DecidableEq, Repr

/-- conservative_decision from analysis.rs.  The worst_card argument stands
for the value of self.find_worst_card_to_discard(), which the source
computes lazily inside the two Draw arms and which never influences the
chosen action, only the card_to_discard payload.  All f64 literals are
rendered as exact rationals; the unused draw_expected_score parameter of
the source is dropped. -/
def conservative_decision (worst_card : Card) (baseline : ℚ)
    (pa : HandProbabilityAnalysis) : AutoPlayDecision :=
  let rps := pa.round_probabilities
  let round_1_analysis : Option (ℚ × ℚ × ℚ) :=
    match rps.get? 1 with
    | some r1 =>
        some (r1.expected_improvement - r1.risk_of_degradation * baseline * 1,
          r1.probability_of_improvement, r1.expected_improvement)
    | none => none
  let round_2_analysis : Option (ℚ × ℚ × ℚ) :=
    match rps.get? 2 with
    | some r2 =>
        some (r2.expected_improvement - r2.risk_of_degradation * baseline * (1.2 : ℚ),
          r2.probability_of_improvement, r2.expected_improvement)
    | none => none
  let round_3_analysis : Option (ℚ × ℚ × ℚ) :=
    match rps.get? 3 with
    | some r3 =>
        some (r3.expected_improvement - r3.risk_of_degradation * baseline * (0.6 : ℚ),
          r3.probability_of_improvement, r3.expected_improvement)
    | none => none
  let res : ℚ × ℚ × ℚ × Nat :=
    match round_1_analysis, round_2_analysis, round_3_analysis with
    | some (v1, p1, i1), some (v2, p2, i2), some (v3, p3, i3) =>
        let weighted := v1 * (0.6 : ℚ) + v2 * (0.4 : ℚ) + v3 * (0.3 : ℚ)
        if v3 > v1 * (1.2 : ℚ) + v2 * (1.2 : ℚ) then (v3, p3, i3, 2)
        else if v2 > v1 * (1.2 : ℚ) then (v2, p2, i2, 2)
        else (weighted, p1, i1, 1)
    | some (v1, p1, i1), none, none => (v1, p1, i1, 1)
    | _, _, _ => (0, 0, 0, 0)
  let net := res.1
  let best_prob := res.2.1
  let best_improvement := res.2.2.1
  let best_rounds := res.2.2.2
  let should_draw : Bool :=
    if baseline = 0 then true
    else if baseline < 5 then net > -(0.5 : ℚ) ∨ best_prob > (0.25 : ℚ)
    else if baseline < 10 then net > (0.5 : ℚ) ∨ best_prob > (0.35 : ℚ)
    else if baseline < 15 then net > 1 ∨ best_prob > (0.45 : ℚ)
    else if baseline < 20 then net > 2 ∨ (best_prob > (0.5 : ℚ) ∧ best_improvement > 3)
    else net > 3 ∨ (best_prob > (0.6 : ℚ) ∧ best_improvement > baseline * (0.2 : ℚ))
  if should_draw ∧ 0 < best_rounds then
    { action := .Draw, confidence := (0.6 : ℚ) + best_prob * (0.3 : ℚ),
      expected_score := baseline + best_improvement, card_to_discard := some worst_card }
  else if rps.isEmpty ∧ baseline < 5 then
    { action := .Draw, confidence := (0.5 : ℚ),
      expected_score := baseline + 2, card_to_discard := some worst_card }
  else
    { action := .Play, confidence := (0.8 : ℚ),
      expected_score := baseline, card_to_discard := none }

/-! ## Basic lemmas -/

theorem insSorted_perm {α : Type} (le : α → α → Bool) (a : α) (l : List α) :
    (insSorted le a l).Perm (a :: l) := by
  induction l with
  | nil => simp [insSorted]
  | cons b rest ih =>
      simp only [insSorted]
      by_cases h : le a b = true
      · simp [h]
      · rw [if_neg h]
        exact (ih.cons b).trans (List.Perm.swap a b rest)

theorem insSort_perm {α : Type} (le : α → α → Bool) (l : List α) :
    (insSort le l).Perm l := by
  induction l with
  | nil => simp [insSort]
  | cons a rest ih =>
      exact (insSorted_perm le a (insSort le rest)).trans (ih.cons a)

theorem sortCards_perm (l : List Card) : (sortCards l).Perm l := insSort_perm _ l

theorem if_lt_max (a b : Nat) : (if a < b then b else a) = Nat.max a b := by
  rcases Nat.lt_or_ge a b with h | h
  · simp [h, Nat.max_eq_right (Nat.le_of_lt h)]
  · simp [Nat.not_lt.mpr h, Nat.max_eq_left h]

theorem foldl_max_mem (l : List Nat) (a : Nat) : l.foldl Nat.max a ∈ a :: l := by
  induction l generalizing a with
  | nil => simp [List.foldl]
  | cons b rest ih =>
      have h := ih (Nat.max a b)
      have hfold : (b :: rest).foldl Nat.max a = rest.foldl Nat.max (Nat.max a b) := rfl
      rw [hfold]
      rcases List.mem_cons.mp h with h1 | h1
      · rw [h1]
        have hm : Nat.max a b = a ∨ Nat.max a b = b := by
          rcases Nat.le_total a b with hab | hab
          · exact Or.inr (Nat.max_eq_right hab)
          · exact Or.inl (Nat.max_eq_left hab)
        rcases hm with h2 | h2 <;> rw [h2]
        · exact List.mem_cons_self a _
        · exact List.mem_cons.mpr (Or.inr (List.mem_cons_self b rest))
      · exact List.mem_cons.mpr (Or.inr (List.mem_cons.mpr (Or.inr h1)))

theorem init_le_foldl_max (l : List Nat) (a : Nat) : a ≤ l.foldl Nat.max a := by
  induction l generalizing a with
  | nil => simp [List.foldl]
  | cons b rest ih =>
      exact le_trans (Nat.le_max_left a b) (ih (Nat.max a b))

theorem mem_le_foldl_max (l : List Nat) (x : Nat) (hx : x ∈ l) :
    ∀ a, x ≤ l.foldl Nat.max a := by
  induction l with
  | nil => cases hx
  | cons b rest ih =>
      intro a
      rcases List.mem_cons.mp hx with h1 | h1
      · subst h1
        exact le_trans (Nat.le_max_right a x) (init_le_foldl_max rest _)
      · exact ih h1 _

theorem mem_meldVals_le_bestFive (hand : List Card) (x : Nat) (hx : x ∈ meldVals hand) :
    x ≤ bestFive hand := mem_le_foldl_max _ x hx 0

/-- Every meld function application is the wrapped pure value, as a single
list equation in MELD_FUNCTIONS order. -/
theorem meldApply (hand : List Card) :
    MELD_FUNCTIONS.map (fun f => f hand) = (meldVals hand).map Except.ok := rfl

/-- Every entry of MELD_FUNCTIONS yields an Ok value belonging to the
twelve-entry value list. -/
theorem meld_ok (hand : List Card) :
    ∀ f ∈ MELD_FUNCTIONS, ∃ n, f hand = Except.ok n ∧ n ∈ meldVals hand := by
  intro f hf
  fin_cases hf <;> exact ⟨_, rfl, by simp [meldVals]⟩

/-- The best five-card value is attained by some meld function. -/
theorem bestFive_attained (hand : List Card) :
    ∃ f ∈ MELD_FUNCTIONS, f hand = Except.ok (bestFive hand) := by
  have hmem := foldl_max_mem (meldVals hand) 0
  have key : bestFive hand ∈ meldVals hand := by
    rcases List.mem_cons.mp hmem with h0 | hm
    · have h0b : bestFive hand = 0 := h0
      have hple : pairVal hand ≤ bestFive hand :=
        mem_meldVals_le_bestFive hand _ (by simp [meldVals])
      have hpz : pairVal hand = bestFive hand := by omega
      rw [← hpz]; simp [meldVals]
    · exact hm
  have hmap : (Except.ok (bestFive hand) : Except String Nat) ∈
      (meldVals hand).map (Except.ok : Nat → Except String Nat) :=
    List.mem_map_of_mem _ key
  rw [← meldApply] at hmap
  rcases List.mem_map.mp hmap with ⟨f, hf, hfe⟩
  exact ⟨f, hf, hfe⟩

/-- The 5-card resolver computes exactly the maximum of the twelve meld
values (and in particular never hits the panic branch of the source). -/
theorem calc5_eq (hand : List Card) :
    calculate_best_meld_from_5_card_hand hand = some (bestFive hand, hand) := by
  simp only [calculate_best_meld_from_5_card_hand, MELD_FUNCTIONS, List.foldl,
    pair_score, two_pair_score, sequence_of_three_score, three_of_a_kind_score,
    straight_score, flush_score, sequence_of_four_score, full_set_score,
    full_house_score, four_of_a_kind_score, straight_flush_score, royal_flush_score,
    Option.bind, if_lt_max, bestFive, meldVals, Option.map]

/-- The serial tree builder computes the same per-discard maximum. -/
theorem discardMax_eq (hand : List Card) : discardMax hand = bestFive hand := by
  simp only [discardMax, MELD_FUNCTIONS, List.filterMap_cons, List.filterMap_nil,
    pair_score, two_pair_score, sequence_of_three_score, three_of_a_kind_score,
    straight_score, flush_score, sequence_of_four_score, full_set_score,
    full_house_score, four_of_a_kind_score, straight_flush_score, royal_flush_score,
    Except.toOption, bestFive, meldVals, List.foldl]

/-! ## Concrete cards used by witnesses and counterexamples -/

def c2s : Card := ⟨.two, .spades, .two⟩
def c2h : Card := ⟨.two, .hearts, .two⟩
def c3c : Card := ⟨.three, .clubs, .three⟩
def c3d : Card := ⟨.three, .diamonds, .three⟩
def c3h : Card := ⟨.three, .hearts, .three⟩
def c4s : Card := ⟨.four, .spades, .four⟩
def c5c : Card := ⟨.five, .clubs, .five⟩
def c5h : Card := ⟨.five, .hearts, .five⟩
def c7d : Card := ⟨.seven, .diamonds, .seven⟩
def c9s : Card := ⟨.nine, .spades, .nine⟩
def c9h : Card := ⟨.nine, .hearts, .nine⟩
def cJh : Card := ⟨.eleven, .hearts, .jack⟩

/-- A 5-card hand matching no meld pattern. -/
def deadHand5 : List Card := [c2s, c3h, c5c, c7d, c9s]

/-- The hand of the C9 scenario: 2s 2h 3c 3d 4s. -/
def c9hand : List Card := [c2s, c2h, c3c, c3d, c4s]

/-! ## C1: the meld scoring engine and the 5-card resolver -/

/-- C1: for every well-formed 5-card hand, each of the 12 meld scoring
functions returns a score without failing (an Ok value), and the meld
score computed by calculate_best_meld_from_5_card_hand equals the maximum of
the 12 individual function results; a hand on which every function reports 0
scores exactly 0, never an error. -/
theorem C1_meld_engine (hand : List Card) (h5 : hand.length = 5) :
    (∀ f ∈ MELD_FUNCTIONS, ∃ n, f hand = Except.ok n) ∧
    calculate_best_meld_from_5_card_hand hand =
      some ((meldVals hand).foldl Nat.max 0, hand) ∧
    ((∀ f ∈ MELD_FUNCTIONS, f hand = Except.ok 0) →
      calculate_best_meld_from_5_card_hand hand = some (0, hand)) := by
  refine ⟨?_, calc5_eq hand, ?_⟩
  · intro f hf
    obtain ⟨n, hn, _⟩ := meld_ok hand f hf
    exact ⟨n, hn⟩
  · intro hz
    obtain ⟨f, hf, hfe⟩ := bestFive_attained hand
    have h0 : (Except.ok (bestFive hand) : Except String Nat) = Except.ok 0 := by
      rw [← hfe, hz f hf]
    have hb0 : bestFive hand = 0 := by injection h0
    rw [calc5_eq hand, hb0]

/-- C1 witness at the concrete dead hand 2s 3h 5c 7d 9s. -/
theorem C1_meld_engine_witness :
    calculate_best_meld_from_5_card_hand deadHand5 =
      some ((meldVals deadHand5).foldl Nat.max 0, deadHand5) :=
  (C1_meld_engine deadHand5 (by decide)).2.1

/-! ## C9: the full-set scenario hand -/

/-- C9 counterexample: on the hand 2s 2h 3c 3d 4s, full_set_score reports 0,
not the claimed 35. -/
theorem C9_counterexample :
    full_set_score c9hand = Except.ok 0 ∧ full_set_score c9hand ≠ Except.ok 35 := by
  decide

/-- C9 amended: on the hand 2s 2h 3c 3d 4s, full_set_score reports 0 (after
removing every card of the highest paired rank, 3, the remaining ranks
2 2 4 hold no run of three), and the best meld of the hand is the two-pair
score 5. -/
theorem C9_full_set_eval :
    full_set_score c9hand = Except.ok 0 ∧
    calculate_best_meld_from_5_card_hand c9hand = some (5, c9hand) := by
  decide

/-! ## C10: card equality and ordering -/

theorem rankToU64_inj : ∀ a b : Rank, rankToU64 a = rankToU64 b → a = b := by decide

/-- C10 counterexample: 2s and 2h have equal ranks but are not equal cards,
so Card equality is not determined by rank alone. -/
theorem C10_counterexample : c2s.rank = c2h.rank ∧ c2s ≠ c2h := by decide

/-- C10 amended: ordering of Cards compares by rank only (cmp returns eq
exactly on equal ranks, and neither suite nor name can change the comparison
result), while equality of Cards is structural: it requires rank, suite and
name all to agree. -/
theorem C10_card_order (c1 c2 : Card) :
    (Card.cmp c1 c2 = Ordering.eq ↔ c1.rank = c2.rank) ∧
    (∀ d1 d2 : Card, d1.rank = c1.rank → d2.rank = c2.rank →
      Card.cmp d1 d2 = Card.cmp c1 c2) ∧
    (c1 = c2 ↔ c1.rank = c2.rank ∧ c1.suite = c2.suite ∧ c1.name = c2.name) := by
  refine ⟨⟨?_, ?_⟩, ?_, ?_, ?_⟩
  · intro h
    exact rankToU64_inj _ _ (Nat.compare_eq_eq.mp h)
  · intro h
    rw [Card.cmp, h]
    exact Nat.compare_eq_eq.mpr rfl
  · intro d1 d2 h1 h2
    rw [Card.cmp, Card.cmp, h1, h2]
  · intro h
    rw [h]
    exact ⟨rfl, rfl, rfl⟩
  · rintro ⟨hr, hs, hn⟩
    cases c1
    cases c2
    cases hr
    cases hs
    cases hn
    rfl

/-- C10 witness: the theorem applied at 2s and 2h. -/
theorem C10_card_order_witness : Card.cmp c2s c2h = Ordering.eq :=
  (C10_card_order c2s c2h).1.mpr (by decide)

/-! ## C2: the 6-card resolver -/

theorem insertIfAbsent_mem_mono {m : List (Except String Nat × List Card)}
    {k : Except String Nat} {v : List Card} {p} (hp : p ∈ m) :
    p ∈ insertIfAbsent m k v := by
  unfold insertIfAbsent
  split
  · exact hp
  · exact List.mem_append_left _ hp

theorem insertIfAbsent_key (m : List (Except String Nat × List Card))
    (k : Except String Nat) (v : List Card) :
    ∃ p ∈ insertIfAbsent m k v, p.1 = k := by
  unfold insertIfAbsent
  split
  · next h =>
      obtain ⟨e, he, hek⟩ := List.any_eq_true.mp h
      exact ⟨e, he, of_decide_eq_true hek⟩
  · exact ⟨(k, v), by simp, rfl⟩

theorem insertIfAbsent_inv {m : List (Except String Nat × List Card)}
    {k : Except String Nat} {v : List Card} {p} (hp : p ∈ insertIfAbsent m k v) :
    p ∈ m ∨ p = (k, v) := by
  unfold insertIfAbsent at hp
  split at hp
  · exact Or.inl hp
  · rcases List.mem_append.mp hp with h | h
    · exact Or.inl h
    · exact Or.inr (List.mem_singleton.mp h)

theorem foldl_insert_mem_mono (fs : List (List Card → Except String Nat))
    (five : List Card) :
    ∀ (m : List (Except String Nat × List Card)) (p), p ∈ m →
      p ∈ fs.foldl (fun m2 f => insertIfAbsent m2 (f five) five) m := by
  induction fs with
  | nil => intro m p hp; exact hp
  | cons f rest ih =>
      intro m p hp
      exact ih _ p (insertIfAbsent_mem_mono hp)

theorem foldl_insert_inv (fs : List (List Card → Except String Nat))
    (five : List Card) :
    ∀ (m : List (Except String Nat × List Card)) (p),
      p ∈ fs.foldl (fun m2 f => insertIfAbsent m2 (f five) five) m →
      p ∈ m ∨ ∃ f ∈ fs, p = (f five, five) := by
  induction fs with
  | nil => intro m p hp; exact Or.inl hp
  | cons f rest ih =>
      intro m p hp
      rcases ih _ p hp with h | ⟨g, hg, hge⟩
      · rcases insertIfAbsent_inv h with h1 | h1
        · exact Or.inl h1
        · exact Or.inr ⟨f, List.mem_cons_self f rest, h1⟩
      · exact Or.inr ⟨g, List.mem_cons.mpr (Or.inr hg), hge⟩

theorem foldl_insert_key (fs : List (List Card → Except String Nat))
    (five : List Card) (f : List Card → Except String Nat) (hf : f ∈ fs) :
    ∀ m, ∃ p ∈ fs.foldl (fun m2 g => insertIfAbsent m2 (g five) five) m,
      p.1 = f five := by
  induction fs with
  | nil => cases hf
  | cons g rest ih =>
      intro m
      rcases List.mem_cons.mp hf with h | h
      · subst h
        obtain ⟨p, hp, hpk⟩ := insertIfAbsent_key m (f five) five
        exact ⟨p, foldl_insert_mem_mono rest five _ p hp, hpk⟩
      · exact ih h _

theorem entryStep_mem_mono {hand : List Card} {m} {i : Nat} {p} (hp : p ∈ m) :
    p ∈ entryStep hand m i := by
  unfold entryStep
  split
  · exact foldl_insert_mem_mono _ _ m p hp
  · exact hp

theorem entryStep_inv {hand : List Card} {m} {i : Nat} {p}
    (hp : p ∈ entryStep hand m i) :
    p ∈ m ∨ ((hand.eraseIdx i).length = 5 ∧
      ∃ f ∈ MELD_FUNCTIONS, p = (f (hand.eraseIdx i), hand.eraseIdx i)) := by
  unfold entryStep at hp
  split at hp
  · next h5 =>
      rcases foldl_insert_inv _ _ _ _ hp with h | h
      · exact Or.inl h
      · exact Or.inr ⟨h5, h⟩
  · exact Or.inl hp

theorem entryStep_key {hand : List Card} {i : Nat}
    (h5 : (hand.eraseIdx i).length = 5)
    {f : List Card → Except String Nat} (hf : f ∈ MELD_FUNCTIONS) (m) :
    ∃ p ∈ entryStep hand m i, p.1 = f (hand.eraseIdx i) := by
  unfold entryStep
  rw [if_pos h5]
  exact foldl_insert_key _ _ f hf m

theorem foldl_entryStep_mem_mono (hand : List Card) (is : List Nat) :
    ∀ m p, p ∈ m → p ∈ is.foldl (entryStep hand) m := by
  induction is with
  | nil => intro m p hp; exact hp
  | cons i rest ih =>
      intro m p hp
      exact ih _ p (entryStep_mem_mono hp)

theorem foldl_entryStep_inv (hand : List Card) (is : List Nat) :
    ∀ m p, p ∈ is.foldl (entryStep hand) m →
      p ∈ m ∨ ∃ i ∈ is, (hand.eraseIdx i).length = 5 ∧
        ∃ f ∈ MELD_FUNCTIONS, p = (f (hand.eraseIdx i), hand.eraseIdx i) := by
  induction is with
  | nil => intro m p hp; exact Or.inl hp
  | cons i rest ih =>
      intro m p hp
      rcases ih _ p hp with h | ⟨j, hj, hprop⟩
      · rcases entryStep_inv h with h1 | h1
        · exact Or.inl h1
        · exact Or.inr ⟨i, List.mem_cons_self i rest, h1⟩
      · exact Or.inr ⟨j, List.mem_cons.mpr (Or.inr hj), hprop⟩

theorem foldl_entryStep_key (hand : List Card) (is : List Nat) (i : Nat)
    (hi : i ∈ is) (h5 : (hand.eraseIdx i).length = 5)
    {f : List Card → Except String Nat} (hf : f ∈ MELD_FUNCTIONS) :
    ∀ m, ∃ p ∈ is.foldl (entryStep hand) m, p.1 = f (hand.eraseIdx i) := by
  induction is with
  | nil => cases hi
  | cons j rest ih =>
      intro m
      rcases List.mem_cons.mp hi with h | h
      · subst h
        obtain ⟨p, hp, hpk⟩ := entryStep_key h5 hf m
        exact ⟨p, foldl_entryStep_mem_mono hand rest _ p hp, hpk⟩
      · exact ih h _

theorem scoreEntries_inv (hand : List Card) {p} (hp : p ∈ scoreEntries hand) :
    ∃ i, i < hand.length ∧ (hand.eraseIdx i).length = 5 ∧
      ∃ f ∈ MELD_FUNCTIONS, p = (f (hand.eraseIdx i), hand.eraseIdx i) := by
  rcases foldl_entryStep_inv hand _ _ _ hp with h | ⟨i, hi, h5, hrest⟩
  · cases h
  · exact ⟨i, List.mem_range.mp hi, h5, hrest⟩

theorem scoreEntries_key (hand : List Card) (i : Nat) (hi : i < hand.length)
    (h5 : (hand.eraseIdx i).length = 5)
    {f : List Card → Except String Nat} (hf : f ∈ MELD_FUNCTIONS) :
    ∃ p ∈ scoreEntries hand, p.1 = f (hand.eraseIdx i) :=
  foldl_entryStep_key hand _ i (List.mem_range.mpr hi) h5 hf []

/-- Read off the payload of an Ok value; the source unwraps, which is safe
because all keys in play are Ok. -/
def okD (e : Except String Nat) : Nat :=
  match e with
  | .ok n => n
  | .error _ => 0

theorem maxByKey_go (l : List (Except String Nat × List Card))
    (hok : ∀ p ∈ l, ∃ n, p.1 = Except.ok n) :
    ∀ b : Except String Nat × List Card, (∃ nb, b.1 = Except.ok nb) →
      ∃ m, l.foldl maxStep (some b) = some m ∧
        (m = b ∨ m ∈ l) ∧ okD b.1 ≤ okD m.1 ∧ ∀ q ∈ l, okD q.1 ≤ okD m.1 := by
  induction l with
  | nil =>
      intro b _
      exact ⟨b, rfl, Or.inl rfl, le_refl _, by intro q hq; cases hq⟩
  | cons x rest ih =>
      intro b hb
      obtain ⟨nb, hnb⟩ := hb
      obtain ⟨nx, hnx⟩ := hok x (List.mem_cons_self x rest)
      have hokr : ∀ p ∈ rest, ∃ n, p.1 = Except.ok n := fun p hp =>
        hok p (List.mem_cons.mpr (Or.inr hp))
      have hcmp : exceptCmp x.1 b.1 = compare nx nb := by
        rw [hnx, hnb]; rfl
      have hfold : (x :: rest).foldl maxStep (some b)
          = rest.foldl maxStep (maxStep (some b) x) := rfl
      by_cases hlt : exceptCmp x.1 b.1 = Ordering.lt
      · have hxb : nx < nb := Nat.compare_eq_lt.mp (hcmp ▸ hlt)
        have hstep : maxStep (some b) x = some b := by
          simp only [maxStep, hlt, if_pos]
        obtain ⟨m, hm, hmem, hble, hall⟩ := ih hokr b ⟨nb, hnb⟩
        refine ⟨m, by rw [hfold, hstep]; exact hm, ?_, hble, ?_⟩
        · rcases hmem with h | h
          · exact Or.inl h
          · exact Or.inr (List.mem_cons.mpr (Or.inr h))
        · intro q hq
          rcases List.mem_cons.mp hq with h | h
          · subst h
            have hqv : okD q.1 = nx := by rw [hnx]; rfl
            have hbv : okD b.1 = nb := by rw [hnb]; rfl
            rw [hqv]
            exact le_trans (le_of_lt hxb) (hbv ▸ hble)
          · exact hall q h
      · have hstep : maxStep (some b) x = some x := by
          simp only [maxStep, hlt, if_neg, if_false]
        have hxb : nb ≤ nx := by
          have hnlt : ¬nx < nb := fun hc =>
            hlt (hcmp.trans (Nat.compare_eq_lt.mpr hc) ▸ rfl)
          omega
        obtain ⟨m, hm, hmem, hxle, hall⟩ := ih hokr x ⟨nx, hnx⟩
        refine ⟨m, by rw [hfold, hstep]; exact hm, ?_, ?_, ?_⟩
        · rcases hmem with h | h
          · exact Or.inr (h ▸ List.mem_cons_self x rest)
          · exact Or.inr (List.mem_cons.mpr (Or.inr h))
        · have hbv : okD b.1 = nb := by rw [hnb]; rfl
          have hxv : okD x.1 = nx := by rw [hnx]; rfl
          rw [hbv]
          exact le_trans hxb (hxv ▸ hxle)
        · intro q hq
          rcases List.mem_cons.mp hq with h | h
          · subst h; exact hxle
          · exact hall q h

theorem maxByKey_spec (l : List (Except String Nat × List Card))
    (hok : ∀ p ∈ l, ∃ n, p.1 = Except.ok n) (hne : l ≠ []) :
    ∃ m, maxByKey l = some m ∧ m ∈ l ∧ ∀ q ∈ l, okD q.1 ≤ okD m.1 := by
  cases l with
  | nil => exact absurd rfl hne
  | cons x rest =>
      obtain ⟨nx, hnx⟩ := hok x (List.mem_cons_self x rest)
      have hokr : ∀ p ∈ rest, ∃ n, p.1 = Except.ok n := fun p hp =>
        hok p (List.mem_cons.mpr (Or.inr hp))
      obtain ⟨m, hm, hmem, hxle, hall⟩ := maxByKey_go rest hokr x ⟨nx, hnx⟩
      refine ⟨m, ?_, ?_, ?_⟩
      · unfold maxByKey
        simpa only [List.foldl] using hm
      · rcases hmem with h | h
        · exact h ▸ List.mem_cons_self x rest
        · exact List.mem_cons.mpr (Or.inr h)
      · intro q hq
        rcases List.mem_cons.mp hq with h | h
        · subst h; exact hxle
        · exact hall q h

/-- C2: for every 6-card hand, calculate_best_meld_from_hand returns a score
that is at least the 5-card meld score of each of the six single-card-removal
subsets, equals the maximum of those six subset scores, and comes with a
winning 5-card subset achieving exactly that score. -/
theorem C2_best_meld_from_hand (hand : List Card) (h6 : hand.length = 6) :
    (∀ i < 6, bestFive (hand.eraseIdx i) ≤ (calculate_best_meld_from_hand hand).1) ∧
    (calculate_best_meld_from_hand hand).1 =
      ((List.range 6).map (fun i => bestFive (hand.eraseIdx i))).foldl Nat.max 0 ∧
    ∃ i < 6, (calculate_best_meld_from_hand hand).2 = hand.eraseIdx i ∧
      bestFive ((calculate_best_meld_from_hand hand).2) =
        (calculate_best_meld_from_hand hand).1 := by
  have h5 : ∀ i, i < 6 → (hand.eraseIdx i).length = 5 := by
    intro i hi
    rw [List.length_eraseIdx, h6]
    simp [hi]
  have hok : ∀ p ∈ scoreEntries hand, ∃ n, p.1 = Except.ok n := by
    intro p hp
    obtain ⟨i, hi, h5i, f, hf, hpe⟩ := scoreEntries_inv hand hp
    obtain ⟨n, hn, _⟩ := meld_ok (hand.eraseIdx i) f hf
    exact ⟨n, by rw [hpe]; exact hn⟩
  have hpairmem : pair_score ∈ MELD_FUNCTIONS := by simp [MELD_FUNCTIONS]
  have hne : scoreEntries hand ≠ [] := by
    obtain ⟨p, hp, _⟩ :=
      scoreEntries_key hand 0 (by omega) (h5 0 (by omega)) hpairmem
    intro hemp
    rw [hemp] at hp
    cases hp
  obtain ⟨m, hmax, hmem, hall⟩ := maxByKey_spec _ hok hne
  obtain ⟨i0, hi0, h5i0, f0, hf0, hm0⟩ := scoreEntries_inv hand hmem
  have hi06 : i0 < 6 := by omega
  obtain ⟨n0, hn0, hn0mem⟩ := meld_ok (hand.eraseIdx i0) f0 hf0
  have hres : calculate_best_meld_from_hand hand = (n0, hand.eraseIdx i0) := by
    unfold calculate_best_meld_from_hand
    rw [hmax, hm0, hn0]
  have hn0le : n0 ≤ bestFive (hand.eraseIdx i0) := mem_meldVals_le_bestFive _ _ hn0mem
  have hmv : okD m.1 = n0 := by
    rw [hm0]
    show okD (f0 (hand.eraseIdx i0)) = n0
    rw [hn0]
    rfl
  have hub : ∀ i, i < 6 → bestFive (hand.eraseIdx i) ≤ n0 := by
    intro i hi
    obtain ⟨g, hg, hge⟩ := bestFive_attained (hand.eraseIdx i)
    obtain ⟨p, hp, hpk⟩ := scoreEntries_key hand i (by omega) (h5 i hi) hg
    have hle := hall p hp
    have hpv : okD p.1 = bestFive (hand.eraseIdx i) := by
      rw [hpk, hge]
      rfl
    rw [hpv, hmv] at hle
    exact hle
  have hbest : bestFive (hand.eraseIdx i0) = n0 := le_antisymm (hub i0 hi06) hn0le
  have hmaxeq : n0 =
      ((List.range 6).map (fun i => bestFive (hand.eraseIdx i))).foldl Nat.max 0 := by
    have h1 : bestFive (hand.eraseIdx i0) ∈
        (List.range 6).map (fun i => bestFive (hand.eraseIdx i)) :=
      List.mem_map.mpr ⟨i0, List.mem_range.mpr hi06, rfl⟩
    have h2 := mem_le_foldl_max _ _ h1 0
    rw [hbest] at h2
    have h3 := foldl_max_mem
      ((List.range 6).map (fun i => bestFive (hand.eraseIdx i))) 0
    have h4 : ((List.range 6).map (fun i => bestFive (hand.eraseIdx i))).foldl
        Nat.max 0 ≤ n0 := by
      rcases List.mem_cons.mp h3 with h0 | hm2
      · rw [h0]
        exact Nat.zero_le _
      · obtain ⟨i, hi, hie⟩ := List.mem_map.mp hm2
        rw [← hie]
        exact hub i (List.mem_range.mp hi)
    exact le_antisymm h2 h4
  rw [hres]
  exact ⟨fun i hi => hub i hi, hmaxeq, i0, hi06, rfl, hbest⟩

/-- A concrete 6-card hand: 2s 2h 3c 3d 4s 4h. -/
def sixHand : List Card := [c2s, c2h, c3c, c3d, c4s, ⟨.four, .hearts, .four⟩]

/-- C2 witness at the hand 2s 2h 3c 3d 4s 4h. -/
theorem C2_best_meld_from_hand_witness :
    sixHand.length = 6 ∧
    (calculate_best_meld_from_hand sixHand).1 =
      ((List.range 6).map (fun i => bestFive (sixHand.eraseIdx i))).foldl Nat.max 0 :=
  ⟨by decide, (C2_best_meld_from_hand sixHand (by decide)).2.1⟩

/-! ## Node field lemmas -/

@[simp] theorem withFullHand_full_hand (n : Node) (fh : List Card) :
    (n.withFullHand fh).full_hand = fh := by cases n; rfl

@[simp] theorem withFullHand_possible_hands (n : Node) (fh : List Card) :
    (n.withFullHand fh).possible_hands = n.possible_hands := by cases n; rfl

@[simp] theorem withFullHand_possible_cards (n : Node) (fh : List Card) :
    (n.withFullHand fh).possible_cards = n.possible_cards := by cases n; rfl

@[simp] theorem withFullHand_depth (n : Node) (fh : List Card) :
    (n.withFullHand fh).depth = n.depth := by cases n; rfl

@[simp] theorem withFullHand_baseline (n : Node) (fh : List Card) :
    (n.withFullHand fh).baseline_score = n.baseline_score := by cases n; rfl

@[simp] theorem withFullHand_branches (n : Node) (fh : List Card) :
    (n.withFullHand fh).branches = n.branches := by cases n; rfl

@[simp] theorem pushPH_possible_hands (n : Node) (ph : PossibleHand) :
    (n.pushPH ph).possible_hands = n.possible_hands ++ [ph] := by cases n; rfl

@[simp] theorem pushPH_depth (n : Node) (ph : PossibleHand) :
    (n.pushPH ph).depth = n.depth := by cases n; rfl

@[simp] theorem pushPH_baseline (n : Node) (ph : PossibleHand) :
    (n.pushPH ph).baseline_score = n.baseline_score := by cases n; rfl

@[simp] theorem pushPH_possible_cards (n : Node) (ph : PossibleHand) :
    (n.pushPH ph).possible_cards = n.possible_cards := by cases n; rfl

@[simp] theorem pushPH_discard_pile (n : Node) (ph : PossibleHand) :
    (n.pushPH ph).discard_pile = n.discard_pile := by cases n; rfl

@[simp] theorem pushPH_branches (n : Node) (ph : PossibleHand) :
    (n.pushPH ph).branches = n.branches := by cases n; rfl

@[simp] theorem pushDiscard_possible_hands (n : Node) (c : Card) :
    (n.pushDiscard c).possible_hands = n.possible_hands := by cases n; rfl

@[simp] theorem pushDiscard_depth (n : Node) (c : Card) :
    (n.pushDiscard c).depth = n.depth := by cases n; rfl

@[simp] theorem pushDiscard_baseline (n : Node) (c : Card) :
    (n.pushDiscard c).baseline_score = n.baseline_score := by cases n; rfl

@[simp] theorem pushDiscard_possible_cards (n : Node) (c : Card) :
    (n.pushDiscard c).possible_cards = n.possible_cards := by cases n; rfl

@[simp] theorem pushDiscard_branches (n : Node) (c : Card) :
    (n.pushDiscard c).branches = n.branches := by cases n; rfl

@[simp] theorem pushBranch_possible_hands (n : Node) (b : Node) :
    (n.pushBranch b).possible_hands = n.possible_hands := by cases n; rfl

@[simp] theorem pushBranch_depth (n : Node) (b : Node) :
    (n.pushBranch b).depth = n.depth := by cases n; rfl

@[simp] theorem pushBranch_baseline (n : Node) (b : Node) :
    (n.pushBranch b).baseline_score = n.baseline_score := by cases n; rfl

@[simp] theorem pushBranch_possible_cards (n : Node) (b : Node) :
    (n.pushBranch b).possible_cards = n.possible_cards := by cases n; rfl

@[simp] theorem pushBranch_discard_pile (n : Node) (b : Node) :
    (n.pushBranch b).discard_pile = n.discard_pile := by cases n; rfl

@[simp] theorem pushBranch_branches (n : Node) (b : Node) :
    (n.pushBranch b).branches = n.branches ++ [b] := by cases n; rfl

@[simp] theorem extendBranches_possible_hands (n : Node) (l : List Node) :
    (n.extendBranches l).possible_hands = n.possible_hands := by cases n; rfl

@[simp] theorem extendBranches_depth (n : Node) (l : List Node) :
    (n.extendBranches l).depth = n.depth := by cases n; rfl

@[simp] theorem extendBranches_baseline (n : Node) (l : List Node) :
    (n.extendBranches l).baseline_score = n.baseline_score := by cases n; rfl

@[simp] theorem extendBranches_possible_cards (n : Node) (l : List Node) :
    (n.extendBranches l).possible_cards = n.possible_cards := by cases n; rfl

@[simp] theorem extendBranches_discard_pile (n : Node) (l : List Node) :
    (n.extendBranches l).discard_pile = n.discard_pile := by cases n; rfl

@[simp] theorem extendBranches_full_hand (n : Node) (l : List Node) :
    (n.extendBranches l).full_hand = n.full_hand := by cases n; rfl

@[simp] theorem extendBranches_branches (n : Node) (l : List Node) :
    (n.extendBranches l).branches = n.branches ++ l := by cases n; rfl

theorem extendBranches_nil (n : Node) : n.extendBranches [] = n := by
  cases n; simp [Node.extendBranches]

theorem pushBranch_extendBranches (n : Node) (b : Node) (l : List Node) :
    (n.pushBranch b).extendBranches l = n.extendBranches (b :: l) := by
  cases n; simp [Node.pushBranch, Node.extendBranches]

/-! ## C6: pruning in the branch-expansion routines -/

/-- The pruning criterion of both branch-expansion routines, as a Boolean
predicate on the sampled draw card. -/
def prunedB (node : Node) (base_hand : List Card) (drawn : Card) : Bool :=
  1 < node.depth ∧
    (calculate_best_meld_from_hand (base_hand ++ [drawn])).1 ≤ node.baseline_score

theorem prunedB_iff (node : Node) (bh : List Card) (c : Card) :
    prunedB node bh c = true ↔
      (1 < node.depth ∧
        (calculate_best_meld_from_hand (bh ++ [c])).1 ≤ node.baseline_score) := by
  simp [prunedB]

theorem prunedB_pushBranch (node b : Node) (bh : List Card) (c : Card) :
    prunedB (node.pushBranch b) bh c = prunedB node bh c := by
  simp [prunedB]

theorem mkBranch_pushBranch (node b : Node) (bh : List Card) (dc : Card)
    (ms : Option Nat) (c : Card) :
    mkBranch (node.pushBranch b) bh dc ms c = mkBranch node bh dc ms c := by
  simp [mkBranch]

theorem ebStep_foldl (evalH : Node → Node) (bh : List Card) (dc : Card)
    (ms : Option Nat) :
    ∀ (cards : List Card) (node : Node),
      cards.foldl (ebStep evalH bh dc ms) node =
        node.extendBranches
          ((cards.filter (fun c => !prunedB node bh c)).map
            (fun c => evalH (mkBranch node bh dc ms c))) := by
  intro cards
  induction cards with
  | nil =>
      intro node
      simp [extendBranches_nil]
  | cons c rest ih =>
      intro node
      rw [List.foldl_cons]
      by_cases hp : 1 < node.depth ∧
          (calculate_best_meld_from_hand (bh ++ [c])).1 ≤ node.baseline_score
      · have hstep : ebStep evalH bh dc ms node c = node := by
          simp only [ebStep]
          rw [if_pos hp]
        have hfilter : (c :: rest).filter (fun x => !prunedB node bh x) =
            rest.filter (fun x => !prunedB node bh x) := by
          have : prunedB node bh c = true := (prunedB_iff node bh c).mpr hp
          simp [List.filter_cons, this]
        rw [hstep, hfilter, ih]
      · have hstep : ebStep evalH bh dc ms node c =
            node.pushBranch (evalH (mkBranch node bh dc ms c)) := by
          simp only [ebStep]
          rw [if_neg hp]
        have hfilter : (c :: rest).filter (fun x => !prunedB node bh x) =
            c :: rest.filter (fun x => !prunedB node bh x) := by
          have : prunedB node bh c = false := by
            rw [← Bool.not_eq_true]
            intro hc
            exact hp ((prunedB_iff node bh c).mp hc)
          simp [List.filter_cons, this]
        rw [hstep, ih, hfilter]
        have hpr : ∀ x, prunedB (node.pushBranch (evalH (mkBranch node bh dc ms c))) bh x
            = prunedB node bh x := fun x => prunedB_pushBranch _ _ _ _
        have hmk : ∀ x, mkBranch (node.pushBranch (evalH (mkBranch node bh dc ms c))) bh dc ms x
            = mkBranch node bh dc ms x := fun x => mkBranch_pushBranch _ _ _ _ _ _
        simp only [hpr, hmk, pushBranch_extendBranches, List.map_cons]

theorem pbCandidate_filterMap (evalH : Node → Node) (node : Node)
    (bh : List Card) (dc : Card) (ms : Option Nat) (cards : List Card) :
    cards.filterMap (pbCandidate evalH node bh dc ms) =
      (cards.filter (fun c => !prunedB node bh c)).map
        (fun c => evalH (mkBranch node bh dc ms c)) := by
  induction cards with
  | nil => rfl
  | cons c rest ih =>
      by_cases hp : 1 < node.depth ∧
          (calculate_best_meld_from_hand (bh ++ [c])).1 ≤ node.baseline_score
      · have hc : pbCandidate evalH node bh dc ms c = none := by
          simp only [pbCandidate]
          rw [if_pos hp]
        have hb : prunedB node bh c = true := (prunedB_iff node bh c).mpr hp
        simp [List.filterMap_cons, List.filter_cons, hc, hb, ih]
      · have hc : pbCandidate evalH node bh dc ms c =
            some (evalH (mkBranch node bh dc ms c)) := by
          simp only [pbCandidate]
          rw [if_neg hp]
        have hb : prunedB node bh c = false := by
          rw [← Bool.not_eq_true]
          intro hcontra
          exact hp ((prunedB_iff node bh c).mp hcontra)
        simp [List.filterMap_cons, List.filter_cons, hc, hb, ih]

/-- Every call of evaluate_branches only extends the branches of its node. -/
theorem eb_fields (fuel : Nat) (sampler : Sampler) (node : Node)
    (bh av : List Card) (dc : Card) (ms : Option Nat) :
    ∃ l, evaluate_branches fuel sampler node bh av dc ms = node.extendBranches l := by
  cases fuel with
  | zero => exact ⟨[], (extendBranches_nil node).symm⟩
  | succ f =>
      simp only [evaluate_branches]
      by_cases h : node.possible_cards.isEmpty
      · rw [if_pos h]
        exact ⟨[], (extendBranches_nil node).symm⟩
      · rw [if_neg h]
        exact ⟨_, ebStep_foldl _ _ _ _ _ node⟩

/-- Every call of evaluate_branches_parallel only extends the branches of
its node. -/
theorem ebp_fields (fuel : Nat) (sampler : Sampler) (node : Node)
    (bh av : List Card) (dc : Card) (ms : Option Nat) :
    ∃ l, evaluate_branches_parallel fuel sampler node bh av dc ms =
      node.extendBranches l := by
  cases fuel with
  | zero => exact ⟨[], (extendBranches_nil node).symm⟩
  | succ f =>
      simp only [evaluate_branches_parallel]
      by_cases h : node.possible_cards.isEmpty
      · rw [if_pos h]
        exact ⟨[], (extendBranches_nil node).symm⟩
      · rw [if_neg h]
        exact ⟨_, rfl⟩

/-! ## C5: possible hands recorded by the two hand evaluators -/

theorem evaluate_hand_succ (fuel : Nat) (sampler : Sampler) (node : Node) :
    evaluate_hand (fuel + 1) sampler node =
      (sortCards node.full_hand).enum.foldl
        (ehStepSerial
          (fun nd bh av dc ms => evaluate_branches_parallel fuel sampler nd bh av dc ms)
          (if node.depth < 3 then node.possible_cards else [])
          (sortCards node.full_hand))
        (node.withFullHand (sortCards node.full_hand)) := rfl

theorem evaluate_hand_parallel_succ (fuel : Nat) (sampler : Sampler) (node : Node) :
    evaluate_hand_parallel (fuel + 1) sampler node =
      (sortCards node.full_hand).enum.foldl
        (ehStepParallel
          (fun nd bh av dc ms => evaluate_branches_parallel fuel sampler nd bh av dc ms)
          (fun nd bh av dc ms => evaluate_branches fuel sampler nd bh av dc ms)
          (if node.depth < 3 then node.possible_cards else [])
          (sortCards node.full_hand))
        (node.withFullHand (sortCards node.full_hand)) := rfl

theorem ehLoop_serial
    (eb : Node → List Card → List Card → Card → Option Nat → Node)
    (heb : ∀ nd bh av dc ms, ∃ l, eb nd bh av dc ms = nd.extendBranches l)
    (bs sorted : List Card) :
    ∀ (pairs : List (Nat × Card)) (node : Node),
      (pairs.foldl (ehStepSerial eb bs sorted) node).possible_hands =
        node.possible_hands ++
          (pairs.filter (fun ic => 0 < discardMax (sorted.eraseIdx ic.1))).map
            (fun ic =>
              ⟨sorted.eraseIdx ic.1, ic.2, discardMax (sorted.eraseIdx ic.1)⟩) := by
  intro pairs
  induction pairs with
  | nil =>
      intro node
      simp
  | cons ic rest ih =>
      intro node
      rw [List.foldl_cons, ih]
      by_cases hmx : 0 < discardMax (sorted.eraseIdx ic.1)
      · have hstep : (ehStepSerial eb bs sorted node ic).possible_hands =
            node.possible_hands ++
              [⟨sorted.eraseIdx ic.1, ic.2, discardMax (sorted.eraseIdx ic.1)⟩] := by
          simp only [ehStepSerial]
          rw [if_pos hmx]
          by_cases hgate : node.depth < 3 ∧ ¬bs.isEmpty
          · rw [if_pos hgate]
            obtain ⟨l, hl⟩ := heb
              ((node.pushPH ⟨sorted.eraseIdx ic.1, ic.2,
                discardMax (sorted.eraseIdx ic.1)⟩).pushDiscard ic.2)
              (sorted.eraseIdx ic.1) bs ic.2 (some (discardMax (sorted.eraseIdx ic.1)))
            rw [hl]
            simp
          · rw [if_neg hgate]
            simp
        have hfilter : (ic :: rest).filter
            (fun x => 0 < discardMax (sorted.eraseIdx x.1)) =
            ic :: rest.filter (fun x => 0 < discardMax (sorted.eraseIdx x.1)) := by
          simp [List.filter_cons, hmx]
        rw [hstep, hfilter, List.map_cons, List.append_assoc]
        rfl
      · have hstep : ehStepSerial eb bs sorted node ic = node := by
          simp only [ehStepSerial]
          rw [if_neg hmx]
        have hfilter : (ic :: rest).filter
            (fun x => 0 < discardMax (sorted.eraseIdx x.1)) =
            rest.filter (fun x => 0 < discardMax (sorted.eraseIdx x.1)) := by
          simp [List.filter_cons, hmx]
        rw [hstep, hfilter]

theorem ehLoop_parallel
    (ebp eb : Node → List Card → List Card → Card → Option Nat → Node)
    (hebp : ∀ nd bh av dc ms, ∃ l, ebp nd bh av dc ms = nd.extendBranches l)
    (heb : ∀ nd bh av dc ms, ∃ l, eb nd bh av dc ms = nd.extendBranches l)
    (bs sorted : List Card) :
    ∀ (pairs : List (Nat × Card)) (node : Node),
      (pairs.foldl (ehStepParallel ebp eb bs sorted) node).possible_hands =
        node.possible_hands ++ pairs.map
          (fun ic =>
            ⟨sorted.eraseIdx ic.1, ic.2, discardMax (sorted.eraseIdx ic.1)⟩) := by
  intro pairs
  induction pairs with
  | nil =>
      intro node
      simp
  | cons ic rest ih =>
      intro node
      rw [List.foldl_cons, ih]
      have hstep : (ehStepParallel ebp eb bs sorted node ic).possible_hands =
          node.possible_hands ++
            [⟨sorted.eraseIdx ic.1, ic.2, discardMax (sorted.eraseIdx ic.1)⟩] := by
        simp only [ehStepParallel]
        by_cases hgate : node.depth < 3 ∧ ¬bs.isEmpty
        · rw [if_pos hgate]
          by_cases hd : node.depth ≤ 1
          · rw [if_pos hd]
            obtain ⟨l, hl⟩ := hebp
              ((node.pushPH ⟨sorted.eraseIdx ic.1, ic.2,
                discardMax (sorted.eraseIdx ic.1)⟩).pushDiscard ic.2)
              (sorted.eraseIdx ic.1) bs ic.2 (some (discardMax (sorted.eraseIdx ic.1)))
            rw [hl]
            simp
          · rw [if_neg hd]
            obtain ⟨l, hl⟩ := heb
              ((node.pushPH ⟨sorted.eraseIdx ic.1, ic.2,
                discardMax (sorted.eraseIdx ic.1)⟩).pushDiscard ic.2)
              (sorted.eraseIdx ic.1) bs ic.2 (some (discardMax (sorted.eraseIdx ic.1)))
            rw [hl]
            simp
        · rw [if_neg hgate]
          simp
      rw [hstep, List.map_cons, List.append_assoc]
      rfl

/-- C5 (amended): the parallel evaluator records one PossibleHand per card of
the sorted full hand, the hand minus that card with its best meld score,
regardless of the score including 0; the serial evaluator records one
exactly for the discards whose best meld score is positive.  The sorted hand
is a permutation of full_hand, so this covers every card of the hand. -/
theorem C5_possible_hands (fuel : Nat) (sampler : Sampler) (node : Node) :
    (evaluate_hand_parallel (fuel + 1) sampler node).possible_hands =
      node.possible_hands ++ (sortCards node.full_hand).enum.map
        (fun ic => ⟨(sortCards node.full_hand).eraseIdx ic.1, ic.2,
          bestFive ((sortCards node.full_hand).eraseIdx ic.1)⟩) ∧
    (evaluate_hand (fuel + 1) sampler node).possible_hands =
      node.possible_hands ++ ((sortCards node.full_hand).enum.filter
        (fun ic => 0 < bestFive ((sortCards node.full_hand).eraseIdx ic.1))).map
        (fun ic => ⟨(sortCards node.full_hand).eraseIdx ic.1, ic.2,
          bestFive ((sortCards node.full_hand).eraseIdx ic.1)⟩) ∧
    (sortCards node.full_hand).Perm node.full_hand := by
  refine ⟨?_, ?_, sortCards_perm node.full_hand⟩
  · have h := ehLoop_parallel
      (fun nd bh av dc ms => evaluate_branches_parallel fuel sampler nd bh av dc ms)
      (fun nd bh av dc ms => evaluate_branches fuel sampler nd bh av dc ms)
      (fun nd bh av dc ms => ebp_fields fuel sampler nd bh av dc ms)
      (fun nd bh av dc ms => eb_fields fuel sampler nd bh av dc ms)
      (if node.depth < 3 then node.possible_cards else [])
      (sortCards node.full_hand)
      (sortCards node.full_hand).enum
      (node.withFullHand (sortCards node.full_hand))
    rw [evaluate_hand_parallel_succ, h, withFullHand_possible_hands]
    simp only [discardMax_eq]
  · have h := ehLoop_serial
      (fun nd bh av dc ms => evaluate_branches_parallel fuel sampler nd bh av dc ms)
      (fun nd bh av dc ms => ebp_fields fuel sampler nd bh av dc ms)
      (if node.depth < 3 then node.possible_cards else [])
      (sortCards node.full_hand)
      (sortCards node.full_hand).enum
      (node.withFullHand (sortCards node.full_hand))
    rw [evaluate_hand_succ, h, withFullHand_possible_hands]
    simp only [discardMax_eq]

/-- A 6-card node whose every 5-card subhand matches no meld pattern. -/
def deadNode : Node := .mk [c2s, c3h, c5c, c7d, c9s, cJh] [] [] [] none 0 [] 0

/-- C5 counterexample: the serial evaluate_hand records no PossibleHand at
all on a node whose every candidate discard scores 0, although the hand has
six cards: score-0 discards are skipped, contradicting the claim that a
PossibleHand is recorded for every card of full_hand regardless of score. -/
theorem C5_counterexample :
    (evaluate_hand 9 (fun _ _ => []) deadNode).possible_hands = [] ∧
    deadNode.full_hand.length = 6 := by
  decide

/-- C6: in both branch-expansion routines, when the possible-cards pool is
non-empty, the branches produced from the sampled draw cards are exactly the
non-pruned candidates, a sampled child being discarded before recursing
precisely when the depth of the node exceeds 1 and the child baseline does not
strictly exceed the parent baseline (the prunedB criterion); at depth at
most 1 no sampled child is ever pruned. -/
theorem C6_pruning (fuel : Nat) (sampler : Sampler) (node : Node)
    (base_hand available_samples : List Card) (discard : Card) (mms : Option Nat)
    (hpc : node.possible_cards ≠ []) :
    (∀ c, prunedB node base_hand c = true ↔
      (1 < node.depth ∧
        (calculate_best_meld_from_hand (base_hand ++ [c])).1 ≤ node.baseline_score)) ∧
    (evaluate_branches (fuel + 1) sampler node base_hand available_samples
        discard mms).branches =
      node.branches ++
        (((sampler available_samples (Nat.min 10 available_samples.length)).filter
          (fun c => !prunedB node base_hand c)).map
          (fun c => evaluate_hand fuel sampler (mkBranch node base_hand discard mms c))) ∧
    (evaluate_branches_parallel (fuel + 1) sampler node base_hand available_samples
        discard mms).branches =
      node.branches ++
        (((sampler available_samples (Nat.min 10 available_samples.length)).filter
          (fun c => !prunedB node base_hand c)).map
          (fun c => evaluate_hand fuel sampler (mkBranch node base_hand discard mms c))) ∧
    (node.depth ≤ 1 → ∀ c, prunedB node base_hand c = false) := by
  have hemp : ¬node.possible_cards.isEmpty = true := by
    simpa [List.isEmpty_iff] using hpc
  refine ⟨fun c => prunedB_iff node base_hand c, ?_, ?_, ?_⟩
  · simp only [evaluate_branches]
    rw [if_neg hemp, ebStep_foldl, extendBranches_branches]
  · simp only [evaluate_branches_parallel]
    rw [if_neg hemp, pbCandidate_filterMap, extendBranches_branches]
  · intro hd c
    rw [← Bool.not_eq_true, prunedB_iff]
    intro ⟨h1, _⟩
    omega

/-- Sampler that keeps the first requested cards, used by witnesses. -/
def takeSampler : Sampler := fun av n => av.take n

/-- A root-depth node with one card left in the pool. -/
def rootNode6 : Node := .mk [] [] [c2s] [] none 3 [] 0

/-- C6 witness: at the concrete root-depth node no sampled candidate is ever
pruned. -/
theorem C6_pruning_witness :
    rootNode6.possible_cards ≠ [] ∧ ∀ c, prunedB rootNode6 [c2s, c3h] c = false :=
  ⟨by decide,
    (C6_pruning 1 takeSampler rootNode6 [c2s, c3h] [c4s] c2h none
      (by decide)).2.2.2 (by decide)⟩

/-! ## C3 and C4: probability aggregation -/

/-- Total mass stored in an outcomes association list. -/
def massSum (m : List (Nat × ℚ)) : ℚ := (m.map (fun kv => kv.2)).sum

/-- Total count stored in a counts association list. -/
def countSum {α : Type} (m : List (α × Nat)) : Nat := (m.map (fun kv => kv.2)).sum

theorem massSum_bumpQ (m : List (Nat × ℚ)) (k : Nat) (v : ℚ) :
    massSum (bumpQ m k v) = massSum m + v := by
  induction m with
  | nil => simp [bumpQ, massSum]
  | cons kv rest ih =>
      obtain ⟨k0, v0⟩ := kv
      simp only [bumpQ]
      by_cases h : k0 = k
      · rw [if_pos h]
        simp [massSum]
        ring
      · rw [if_neg h]
        simp only [massSum, List.map_cons, List.sum_cons] at ih ⊢
        rw [ih]
        ring

theorem countSum_bumpCount {α : Type} [DecidableEq α] (m : List (α × Nat)) (k : α) :
    countSum (bumpCount m k) = countSum m + 1 := by
  induction m with
  | nil => simp [bumpCount, countSum]
  | cons kv rest ih =>
      obtain ⟨k0, v0⟩ := kv
      simp only [bumpCount]
      by_cases h : k0 = k
      · rw [if_pos h]
        simp [countSum]
        ring
      · rw [if_neg h]
        simp only [countSum, List.map_cons, List.sum_cons] at ih ⊢
        rw [ih]
        ring

theorem addPHW_spec (bp : ℚ) (phs : List PossibleHand) :
    ∀ st : CState,
      massSum (addPHW bp st phs).outcomes = massSum st.outcomes + phs.length * bp ∧
      (addPHW bp st phs).total_prob = st.total_prob + phs.length * bp := by
  induction phs with
  | nil =>
      intro st
      simp [addPHW]
  | cons ph rest ih =>
      intro st
      have heq : addPHW bp st (ph :: rest) =
          addPHW bp ⟨bumpQ st.outcomes ph.meld_score bp, st.total_prob + bp,
            st.total_paths + 1⟩ rest := rfl
      rw [heq]
      obtain ⟨h1, h2⟩ := ih ⟨bumpQ st.outcomes ph.meld_score bp, st.total_prob + bp,
        st.total_paths + 1⟩
      constructor
      · rw [h1]
        show massSum (bumpQ st.outcomes ph.meld_score bp) + rest.length * bp = _
        rw [massSum_bumpQ]
        push_cast [List.length_cons]
        ring
      · rw [h2]
        show st.total_prob + bp + rest.length * bp = _
        push_cast [List.length_cons]
        ring

theorem addPHD_spec (phs : List PossibleHand) :
    ∀ st : DState,
      countSum (addPHD st phs).outcomes = countSum st.outcomes + phs.length ∧
      (addPHD st phs).total_count = st.total_count + phs.length := by
  induction phs with
  | nil =>
      intro st
      simp [addPHD]
  | cons ph rest ih =>
      intro st
      have heq : addPHD st (ph :: rest) =
          addPHD ⟨bumpCount st.outcomes ph.meld_score, st.total_count + 1⟩ rest := rfl
      rw [heq]
      obtain ⟨h1, h2⟩ := ih ⟨bumpCount st.outcomes ph.meld_score, st.total_count + 1⟩
      constructor
      · rw [h1]
        show countSum (bumpCount st.outcomes ph.meld_score) + rest.length = _
        rw [countSum_bumpCount]
        simp [List.length_cons]
        ring
      · rw [h2]
        show st.total_count + 1 + rest.length = _
        simp [List.length_cons]
        ring

mutual

/-- Mass conservation of collect_weighted_paths: every call with incoming
probability p adds exactly p to the accumulated outcome mass and to the
total probability, so no probability mass silently vanishes. -/
theorem collectW_mass : ∀ (n : Node) (cd td : Nat) (p : ℚ) (st : CState), cd ≤ td →
    massSum (collectW n cd td p st).outcomes = massSum st.outcomes + p ∧
    (collectW n cd td p st).total_prob = st.total_prob + p
  | .mk fh phs pcs dp ms bs brs d, cd, td, p, st, hle => by
      simp only [collectW]
      by_cases hcd : cd = td
      · rw [if_pos hcd]
        by_cases hph : phs.isEmpty
        · rw [if_pos hph]
          exact ⟨massSum_bumpQ _ _ _, rfl⟩
        · rw [if_neg hph]
          have hlen : phs.length ≠ 0 := by
            cases phs
            · simp at hph
            · simp
          obtain ⟨h1, h2⟩ := addPHW_spec (p / (phs.length : ℚ)) phs st
          have hcancel : (phs.length : ℚ) * (p / (phs.length : ℚ)) = p := by
            rw [mul_comm]
            exact div_mul_cancel₀ p (Nat.cast_ne_zero.mpr hlen)
          exact ⟨by rw [h1, hcancel], by rw [h2, hcancel]⟩
      · have hlt : cd < td := lt_of_le_of_ne hle hcd
        rw [if_neg hcd, if_pos hlt]
        by_cases hbr : brs.isEmpty
        · rw [if_pos hbr]
          by_cases hph : phs.isEmpty
          · rw [if_pos hph]
            exact ⟨massSum_bumpQ _ _ _, rfl⟩
          · rw [if_neg hph]
            have hlen : phs.length ≠ 0 := by
              cases phs
              · simp at hph
              · simp
            obtain ⟨h1, h2⟩ := addPHW_spec (p / (phs.length : ℚ)) phs st
            have hcancel : (phs.length : ℚ) * (p / (phs.length : ℚ)) = p := by
              rw [mul_comm]
              exact div_mul_cancel₀ p (Nat.cast_ne_zero.mpr hlen)
            exact ⟨by rw [h1, hcancel], by rw [h2, hcancel]⟩
        · rw [if_neg hbr]
          have hlen : brs.length ≠ 0 := by
            cases brs
            · simp at hbr
            · simp
          obtain ⟨h1, h2⟩ := collectWList_mass brs (cd + 1) td
            (p / (brs.length : ℚ)) st (by omega)
          have hcancel : (brs.length : ℚ) * (p / (brs.length : ℚ)) = p := by
            rw [mul_comm]
            exact div_mul_cancel₀ p (Nat.cast_ne_zero.mpr hlen)
          exact ⟨by rw [h1, hcancel], by rw [h2, hcancel]⟩

theorem collectWList_mass : ∀ (l : List Node) (cd td : Nat) (q : ℚ) (st : CState),
    cd ≤ td →
    massSum (collectWList l cd td q st).outcomes =
      massSum st.outcomes + l.length * q ∧
    (collectWList l cd td q st).total_prob = st.total_prob + l.length * q
  | [], cd, td, q, st, _ => by
      simp [collectWList]
  | n :: rest, cd, td, q, st, hle => by
      simp only [collectWList]
      obtain ⟨h1, h2⟩ := collectW_mass n cd td q st hle
      obtain ⟨h3, h4⟩ := collectWList_mass rest cd td q (collectW n cd td q st) hle
      constructor
      · rw [h3, h1]
        push_cast [List.length_cons]
        ring
      · rw [h4, h2]
        push_cast [List.length_cons]
        ring

end

mutual

/-- Count balance of collect_direct_outcomes_at_depth: the outcome counts
and the total counter always advance by the same amount. -/
theorem collectD_balance : ∀ (n : Node) (cd td : Nat) (st : DState),
    ∃ k, countSum (collectD n cd td st).outcomes = countSum st.outcomes + k ∧
      (collectD n cd td st).total_count = st.total_count + k
  | .mk fh phs pcs dp ms bs brs d, cd, td, st => by
      simp only [collectD]
      by_cases hcd : cd = td
      · rw [if_pos hcd]
        by_cases hph : phs.isEmpty
        · rw [if_pos hph]
          exact ⟨1, countSum_bumpCount _ _, rfl⟩
        · rw [if_neg hph]
          obtain ⟨h1, h2⟩ := addPHD_spec phs st
          exact ⟨phs.length, h1, h2⟩
      · rw [if_neg hcd]
        by_cases hcase : cd < td ∧ ¬brs.isEmpty
        · rw [if_pos hcase]
          exact collectDList_balance brs (cd + 1) td st
        · rw [if_neg hcase]
          by_cases hcase2 : cd < td ∧ brs.isEmpty
          · rw [if_pos hcase2]
            by_cases hph : phs.isEmpty
            · rw [if_pos hph]
              exact ⟨0, by simp, by simp⟩
            · rw [if_neg hph]
              obtain ⟨h1, h2⟩ := addPHD_spec phs st
              exact ⟨phs.length, h1, h2⟩
          · rw [if_neg hcase2]
            exact ⟨0, by simp, by simp⟩

theorem collectDList_balance : ∀ (l : List Node) (cd td : Nat) (st : DState),
    ∃ k, countSum (collectDList l cd td st).outcomes = countSum st.outcomes + k ∧
      (collectDList l cd td st).total_count = st.total_count + k
  | [], _, _, st => ⟨0, by simp [collectDList], by simp [collectDList]⟩
  | n :: rest, cd, td, st => by
      simp only [collectDList]
      obtain ⟨k1, h1, h2⟩ := collectD_balance n cd td st
      obtain ⟨k2, h3, h4⟩ := collectDList_balance rest cd td (collectD n cd td st)
      exact ⟨k1 + k2, by rw [h3, h1]; ring, by rw [h4, h2]; ring⟩

end

/-- Sum of the probabilities of a list of outcomes. -/
def probSum (l : List ImprovementOutcome) : ℚ := (l.map (fun o => o.probability)).sum

theorem probSum_sortOutcomesDesc (l : List ImprovementOutcome) :
    probSum (sortOutcomesDesc l) = probSum l :=
  ((insSort_perm _ l).map _).sum_eq

theorem probSum_map_div (T : ℚ) (g : Nat × ℚ → ImprovementOutcome)
    (hg : ∀ kv, (g kv).probability = kv.2 / T) (outs : List (Nat × ℚ)) :
    probSum (outs.map g) = massSum outs / T := by
  induction outs with
  | nil => simp [probSum, massSum]
  | cons kv rest ih =>
      have h1 : probSum ((kv :: rest).map g) =
          (g kv).probability + probSum (rest.map g) := by
        simp [probSum]
      have h2 : massSum (kv :: rest) = kv.2 + massSum rest := by
        simp [massSum]
      rw [h1, h2, hg kv, ih, add_div]

theorem probSum_map_count (N : Nat) (g : Nat × Nat → ImprovementOutcome)
    (hg : ∀ kv, (g kv).probability = (kv.2 : ℚ) / (N : ℚ))
    (outs : List (Nat × Nat)) :
    probSum (outs.map g) = (countSum outs : ℚ) / (N : ℚ) := by
  induction outs with
  | nil => simp [probSum, countSum]
  | cons kv rest ih =>
      have h1 : probSum ((kv :: rest).map g) =
          (g kv).probability + probSum (rest.map g) := by
        simp [probSum]
      have h2 : (countSum (kv :: rest) : ℚ) = (kv.2 : ℚ) + (countSum rest : ℚ) := by
        simp [countSum]
      rw [h1, h2, hg kv, ih, add_div]

/-- C3: whenever at least one leaf outcome was recorded at the target depth,
the probabilities of the recorded outcomes in the RoundProbabilities
produced by analyze_round_with_paths, and by analyze_realistic_round, sum to
exactly 1 (the f64 arithmetic of the source is modelled exactly over the
rationals). -/
theorem C3_probability_sums (n : Node) (td b : Nat) :
    ((analyze_round_with_paths n td b).improvements ≠ [] →
      probSum (analyze_round_with_paths n td b).improvements = 1) ∧
    (∀ r, analyze_realistic_round n td b = some r →
      probSum r.improvements = 1) := by
  constructor
  · intro hne
    unfold analyze_round_with_paths at hne ⊢
    by_cases hguard : (collectW n 0 td 1 ⟨[], 0, 0⟩).outcomes.isEmpty ∨
        (collectW n 0 td 1 ⟨[], 0, 0⟩).total_prob = 0
    · rw [if_pos hguard] at hne
      simp at hne
    · rw [if_neg hguard] at hne ⊢
      rw [probSum_sortOutcomesDesc,
        probSum_map_div ((collectW n 0 td 1 ⟨[], 0, 0⟩).total_prob) _
          (fun kv => rfl)]
      obtain ⟨h1, h2⟩ := collectW_mass n 0 td 1 ⟨[], 0, 0⟩ (Nat.zero_le td)
      have h1b : massSum (collectW n 0 td 1 ⟨[], 0, 0⟩).outcomes = 1 := by
        rw [h1]
        simp [massSum]
      have h2b : (collectW n 0 td 1 ⟨[], 0, 0⟩).total_prob = 1 := by
        rw [h2]
        simp
      rw [h1b, h2b]
      norm_num
  · intro r hr
    unfold analyze_realistic_round at hr
    by_cases hz : (collectD n 0 td ⟨[], 0⟩).total_count = 0
    · rw [if_pos hz] at hr
      cases hr
    · rw [if_neg hz] at hr
      have hr2 := Option.some.inj hr
      rw [← hr2]
      rw [probSum_sortOutcomesDesc,
        probSum_map_count ((collectD n 0 td ⟨[], 0⟩).total_count) _
          (fun kv => rfl)]
      obtain ⟨k, h1, h2⟩ := collectD_balance n 0 td ⟨[], 0⟩
      have hcons : countSum (collectD n 0 td ⟨[], 0⟩).outcomes =
          (collectD n 0 td ⟨[], 0⟩).total_count := by
        rw [h1, h2]
        simp [countSum]
      rw [hcons]
      exact div_self (Nat.cast_ne_zero.mpr hz)

/-- A tiny built tree: a root with two depth-1 children, one holding two
recorded possible hands, the other a childless handless leaf. -/
def probeTree : Node :=
  .mk [] [] [] [] none 2
    [.mk [] [⟨[], c2s, 5⟩, ⟨[], c2s, 7⟩] [] [] none 3 [] 1,
     .mk [] [] [] [] none 4 [] 1] 0

/-- A childless, handless leaf node with baseline 4. -/
def probeLeaf : Node := .mk [] [] [] [] none 4 [] 0

/-- C3 witness: at the concrete leaf (weighted aggregation) and the concrete
probe tree (realistic aggregation) the recorded probabilities sum to 1. -/
theorem C3_probability_sums_witness :
    probSum (analyze_round_with_paths probeLeaf 1 2).improvements = 1 ∧
    probSum (((analyze_realistic_round probeTree 1 2).getD
      ⟨0, 0, 0, [], 0, 0, 0⟩).improvements) = 1 := by
  constructor
  · apply (C3_probability_sums probeLeaf 1 2).1
    simp [analyze_round_with_paths, collectW, bumpQ, sortOutcomesDesc, insSort,
      insSorted, probeLeaf]
  · exact (C3_probability_sums probeTree 1 2).2 _ rfl

/-- A childless, handless leaf with baseline 7, as reached by the
tree walk of the aggregator. -/
def silentLeaf : Node := .mk [] [] [] [] none 7 [] 0

/-- C4 counterexample: in collect_direct_outcomes_at_depth a node strictly
before the target depth with neither branches nor possible hands contributes
nothing: its count silently vanishes instead of being attributed to its
baseline score 7. -/
theorem C4_counterexample :
    collectD silentLeaf 0 1 ⟨[], 0⟩ = ⟨[], 0⟩ ∧
    silentLeaf.branches = [] ∧ silentLeaf.possible_hands = [] ∧
    silentLeaf.baseline_score = 7 :=
  ⟨rfl, rfl, rfl, rfl⟩

/-- C4 (amended): in collect_weighted_paths, every node reached at or before
the target depth with neither branches nor recorded possible hands
contributes its entire incoming probability mass at its own baseline score
(and by collectW_mass no mass ever vanishes); in
collect_direct_outcomes_at_depth this holds only at exactly the target
depth - strictly before it such a node contributes nothing. -/
theorem C4_no_info_mass (n : Node) (cd td : Nat) (p : ℚ) (st : CState)
    (sd : DState) (hle : cd ≤ td) (hbr : n.branches = [])
    (hph : n.possible_hands = []) :
    collectW n cd td p st =
      ⟨bumpQ st.outcomes n.baseline_score p, st.total_prob + p,
        st.total_paths + 1⟩ ∧
    (cd = td → collectD n cd td sd =
      ⟨bumpCount sd.outcomes n.baseline_score, sd.total_count + 1⟩) ∧
    (cd < td → collectD n cd td sd = sd) := by
  cases n with
  | mk fh phs pcs dp ms bs brs d =>
      have hbr2 : brs = [] := hbr
      have hph2 : phs = [] := hph
      subst hbr2
      subst hph2
      refine ⟨?_, ?_, ?_⟩
      · simp only [collectW]
        rcases eq_or_lt_of_le hle with heq | hlt
        · rw [if_pos heq]
          rfl
        · rw [if_neg (by omega), if_pos hlt]
          rfl
      · intro heq
        simp only [collectD]
        rw [if_pos heq]
        rfl
      · intro hlt
        simp only [collectD]
        rw [if_neg (by omega)]
        rw [if_neg (by simp)]
        rw [if_pos (by simp [hlt])]
        rfl

/-- C4 witness: the theorem applied at the concrete silent leaf. -/
theorem C4_no_info_mass_witness :
    collectW silentLeaf 0 1 1 ⟨[], 0, 0⟩ =
      ⟨bumpQ ([] : List (Nat × ℚ)) silentLeaf.baseline_score 1, 0 + 1, 0 + 1⟩ ∧
    collectD silentLeaf 0 1 ⟨[], 0⟩ = ⟨[], 0⟩ :=
  ⟨(C4_no_info_mass silentLeaf 0 1 1 ⟨[], 0, 0⟩ ⟨[], 0⟩ (by omega) rfl rfl).1,
   (C4_no_info_mass silentLeaf 0 1 1 ⟨[], 0, 0⟩ ⟨[], 0⟩ (by omega) rfl rfl).2.2
     (by omega)⟩

/-! ## C7: immediate contribution -/

/-- A 6-card node holding the pair 2s 2h, baseline 2. -/
def c7node : Node := .mk [c2s, c2h, c3c, c5h, c7d, c9h] [] [] [] none 2 [] 0

/-- C7 evaluation at the failing input: removing 9h from the 6-card pair
hand leaves a 5-card hand whose best meld value is still the pair score 2,
yet calculate_immediate_contribution reports 2 (the full baseline) instead
of the claimed 2 - 2 = 0, because calculate_score_without_card feeds the
5-card remainder to calculate_best_meld_from_hand, which returns 0 for any
hand that is not exactly 6 cards. -/
theorem C7_immediate_contribution_eval :
    c7node.calculate_immediate_contribution c9h = 2 ∧
    c7node.calculate_score_without_card c9h = 0 ∧
    bestFive (c7node.full_hand.filter (fun c => c ≠ c9h)) = 2 ∧
    (c7node.full_hand.filter (fun c => c ≠ c9h)).length = 5 := by
  refine ⟨?_, by decide, by decide, by decide⟩
  have h0 : c7node.calculate_score_without_card c9h = 0 := by decide
  have hb : c7node.baseline_score = 2 := rfl
  unfold Node.calculate_immediate_contribution
  rw [h0, hb]
  norm_num

/-! ## C8: the conservative decision on a baseline-0 hand -/

/-- A three-round analysis (rounds 0, 1 and 2), exactly the shape produced
by calculate_realistic_probabilities, with baseline 0 and certain
improvement reported in rounds 1 and 2. -/
def paC8 : HandProbabilityAnalysis :=
  ⟨0,
   [⟨0, 1, 0, [], 0, 0, 0⟩,
    ⟨1, 1, 0, [], 1, 2, 0⟩,
    ⟨2, 1, 0, [], 1, 2, 0⟩],
   some 0, 1, none⟩

/-- C8 evaluation at the failing input: on a baseline-0 hand whose analysis
carries three round entries with probability_of_improvement 1 in round 1,
conservative_decision returns Play.  The round-count match covers only the
(Some, Some, Some) and (Some, None, None) shapes, so with rounds 0..2 the
catch-all arm yields best_rounds = 0 and the "No meld: always draw" branch
is bypassed. -/
theorem C8_conservative_eval :
    (conservative_decision c2s 0 paC8).action = PlayAction.Play ∧
    paC8.current_baseline = 0 ∧
    (paC8.round_probabilities.get? 1).map
      (fun r => decide (0 < r.probability_of_improvement)) = some true := by
  decide

end Rummy

